import Mathlib

/-!
Verification development for the paraphrase_engine repository.

The definitions below are a shallow embedding of the Python sources:
  * `block4_document/document_builder.py`  (DocumentBuilder)
  * `block2_orchestrator/task_manager.py`  (TaskManager / TaskStatus)
  * `block3_paraphrasing/agent_core.py`    (ParaphrasingAgent)

Text is modelled as `List Char`.  Python's `re` module is embedded by
direct deterministic matchers for the concrete patterns that appear in
the source; the character classes `\s` and `\d` are modelled by their
ASCII parts, which covers every input analysed here.
-/

namespace PE

/-- Python `\s` / `str.isspace`, restricted to the ASCII whitespace
characters (space, tab, LF, CR, VT, FF). -/
def isPySpace (c : Char) : Bool :=
  c = ' ' || c = '\t' || c = '\n' || c = '\r' || c = '\x0b' || c = '\x0c'

/-- Python `\d`, restricted to ASCII decimal digits. -/
def isPyDigit (c : Char) : Bool := c.isDigit

/-! ### `DocumentBuilder._normalize_text` step 1:
`re.sub(r'\[\d+[,\s]*(?:[сc]\.\s*)?\d*\]', '', text)`.
All neighbouring pieces of the pattern use disjoint character classes,
so a greedy matcher without backtracking is exact. -/

/-- The optional group `(?:[сc]\.\s*)?` of the citation pattern:
consume `с.`/`c.` plus following whitespace when present. -/
def citeOptGroup (r2 : List Char) : List Char :=
  match r2 with
  | c :: '.' :: rr => if c = 'с' || c = 'c' then rr.dropWhile isPySpace else r2
  | _ => r2

/-- Try to match `\[\d+[,\s]*(?:[сc]\.\s*)?\d*\]` at the head of the
list; on success return the remainder after the match. -/
def matchCitation : List Char → Option (List Char)
  | '[' :: r0 =>
    if (r0.takeWhile isPyDigit).isEmpty then none else
    match (citeOptGroup ((r0.dropWhile isPyDigit).dropWhile
        (fun c => c = ',' || isPySpace c))).dropWhile isPyDigit with
    | ']' :: r5 => some r5
    | _ => none
  | _ => none

theorem citeOptGroup_length_le (r2 : List Char) :
    (citeOptGroup r2).length ≤ r2.length := by
  unfold citeOptGroup
  split
  · split
    · rename_i c rr h
      calc (rr.dropWhile isPySpace).length ≤ rr.length :=
            (List.dropWhile_suffix _).length_le
        _ ≤ (c :: '.' :: rr).length := by simp; omega
    · exact le_refl _
  · exact le_refl _

theorem matchCitation_length {l r : List Char} (h : matchCitation l = some r) :
    r.length < l.length := by
  rw [matchCitation.eq_def] at h
  split at h
  · rename_i r0
    split at h
    · exact absurd h (by simp)
    · split at h
      · rename_i heq
        cases h
        have h1 : r.length <
            ((citeOptGroup ((r0.dropWhile isPyDigit).dropWhile
              (fun c => c = ',' || isPySpace c))).dropWhile isPyDigit).length := by
          rw [heq]; simp
        have h2 := (List.dropWhile_suffix (l := citeOptGroup
            ((r0.dropWhile isPyDigit).dropWhile (fun c => c = ',' || isPySpace c)))
            isPyDigit).length_le
        have h3 := citeOptGroup_length_le
            ((r0.dropWhile isPyDigit).dropWhile (fun c => c = ',' || isPySpace c))
        have h4 := (List.dropWhile_suffix (l := r0.dropWhile isPyDigit)
            (fun c => c = ',' || isPySpace c)).length_le
        have h5 := (List.dropWhile_suffix (l := r0) isPyDigit).length_le
        simp only [List.length_cons]
        omega
      · exact absurd h (by simp)
  · exact absurd h (by simp)

/-- If a citation match succeeds, the input contains a digit. -/
theorem matchCitation_hasDigit {l r : List Char} (h : matchCitation l = some r) :
    ∃ c ∈ l, isPyDigit c = true := by
  rw [matchCitation.eq_def] at h
  split at h
  · rename_i r0
    split at h
    · exact absurd h (by simp)
    · rename_i hne
      match hr : r0 with
      | [] => simp [List.takeWhile] at hne
      | d :: r0' =>
        subst hr
        by_cases hd : isPyDigit d = true
        · exact ⟨d, by simp, hd⟩
        · rw [List.takeWhile_cons, if_neg (by simp [hd])] at hne
          simp at hne
  · exact absurd h (by simp)

/-! ### `_normalize_text` step 2: `re.sub(r'[сc]\.\s*\d+', '', text)` -/

/-- Try to match `[сc]\.\s*\d+` at the head; return the remainder. -/
def matchPageRef : List Char → Option (List Char)
  | c :: '.' :: rr =>
    if c = 'с' || c = 'c' then
      if ((rr.dropWhile isPySpace).takeWhile isPyDigit).isEmpty then none
      else some ((rr.dropWhile isPySpace).dropWhile isPyDigit)
    else none
  | _ => none

theorem matchPageRef_length {l r : List Char} (h : matchPageRef l = some r) :
    r.length < l.length := by
  rw [matchPageRef.eq_def] at h
  split at h
  · rename_i c rr
    split at h
    · split at h
      · exact absurd h (by simp)
      · cases h
        have h1 := (List.dropWhile_suffix (l := rr.dropWhile isPySpace)
            isPyDigit).length_le
        have h2 := (List.dropWhile_suffix (l := rr) isPySpace).length_le
        simp only [List.length_cons]
        omega
    · exact absurd h (by simp)
  · exact absurd h (by simp)

theorem matchPageRef_hasDigit {l r : List Char} (h : matchPageRef l = some r) :
    ∃ c ∈ l, isPyDigit c = true := by
  rw [matchPageRef.eq_def] at h
  split at h
  · rename_i c rr
    split at h
    · split at h
      · exact absurd h (by simp)
      · rename_i hne
        match hr : rr.dropWhile isPySpace, hne with
        | d :: r1', hne =>
          by_cases hd : isPyDigit d = true
          · have hmem : d ∈ rr := by
              have : d ∈ rr.dropWhile isPySpace := by rw [hr]; simp
              exact (List.dropWhile_suffix isPySpace).subset this
            exact ⟨d, by simp [hmem], hd⟩
          · rw [List.takeWhile_cons, if_neg (by simp [hd])] at hne
            simp at hne
        | [], hne => simp [List.takeWhile] at hne
    · exact absurd h (by simp)
  · exact absurd h (by simp)

/-! ### `_normalize_text` step 3:
`re.sub(r'^\d+\s+\d+\s*', '', text)` (no MULTILINE: `^` only matches at
position 0, so at most one deletion, at the start of the string). -/

def subLeadingNums (l : List Char) : List Char :=
  let d1 := l.takeWhile isPyDigit
  if d1.isEmpty then l else
  let r1 := l.dropWhile isPyDigit
  let w1 := r1.takeWhile isPySpace
  if w1.isEmpty then l else
  let r2 := r1.dropWhile isPySpace
  let d2 := r2.takeWhile isPyDigit
  if d2.isEmpty then l else
  (r2.dropWhile isPyDigit).dropWhile isPySpace

theorem takeWhile_eq_nil_of_none {p : Char → Bool} {l : List Char}
    (hl : ∀ c ∈ l, p c = false) : l.takeWhile p = [] := by
  cases l with
  | nil => rfl
  | cons c rest => rw [List.takeWhile_cons, if_neg (by simp [hl c (by simp)])]

theorem subLeadingNums_of_noDigit {l : List Char}
    (hl : ∀ c ∈ l, isPyDigit c = false) : subLeadingNums l = l := by
  unfold subLeadingNums
  simp [takeWhile_eq_nil_of_none hl]

/-! ### `_normalize_text` step 4:
`re.sub(r'^\d+\s*$', '', text, flags=re.MULTILINE)`.
`^` matches at position 0 or right after a `\n`; `\s*$` is the greedy
whitespace run stopping at end-of-string or just before a `\n`. -/

/-- Greedy `\s*$`: consume the maximal whitespace prefix if it reaches
the end of the string, else stop just before the last `\n` of the
whitespace prefix (none if there is no such `\n`).  Returns the
remainder together with the last consumed character (to know whether
the scan position after the match sits at a line start). -/
def matchTrailWs (l : List Char) : Option (List Char × Bool) :=
  if (l.dropWhile isPySpace).isEmpty then
    some ([], (l.takeWhile isPySpace).getLast? = some '\n')
  else
    match ((l.takeWhile isPySpace).reverse.dropWhile (fun c => !(c = '\n'))) with
    | [] => none
    | '\n' :: wpre =>
      some ('\n' :: ((l.takeWhile isPySpace).reverse.takeWhile
          (fun c => !(c = '\n'))).reverse ++ l.dropWhile isPySpace,
        wpre.head? = some '\n')
    | _ :: _ => none

/-- Try to match `\d+\s*$` at a line start; return the remainder and
whether the next scan position is again a line start. -/
def matchNumLine (l : List Char) : Option (List Char × Bool) :=
  if (l.takeWhile isPyDigit).isEmpty then none
  else matchTrailWs (l.dropWhile isPyDigit)

theorem length_takeWhile_add_dropWhile (p : Char → Bool) (l : List Char) :
    (l.takeWhile p).length + (l.dropWhile p).length = l.length := by
  conv_rhs => rw [← List.takeWhile_append_dropWhile (p := p) (l := l)]
  rw [List.length_append]

theorem matchTrailWs_length {l : List Char} {r : List Char × Bool}
    (h : matchTrailWs l = some r) : r.1.length ≤ l.length := by
  unfold matchTrailWs at h
  split at h
  · cases h; simp
  · split at h
    · exact absurd h (by simp)
    · rename_i wpre heq
      cases h
      have h1 : ('\n' :: wpre).length ≤ (l.takeWhile isPySpace).reverse.length := by
        rw [← heq]
        exact (List.dropWhile_suffix _).length_le
      have h2 : ((l.takeWhile isPySpace).reverse.takeWhile
          (fun c => !(c = '\n'))).length + ('\n' :: wpre).length
          = (l.takeWhile isPySpace).reverse.length := by
        rw [← heq, length_takeWhile_add_dropWhile]
      have h3 := length_takeWhile_add_dropWhile isPySpace l
      simp only [List.length_append, List.length_cons, List.length_reverse] at *
      omega
    · exact absurd h (by simp)

theorem matchNumLine_length {l : List Char} {r : List Char × Bool}
    (h : matchNumLine l = some r) : r.1.length < l.length := by
  unfold matchNumLine at h
  split at h
  · exact absurd h (by simp)
  · rename_i hne
    have h1 : r.1.length ≤ (l.dropWhile isPyDigit).length := matchTrailWs_length h
    have h2 : (l.takeWhile isPyDigit).length + (l.dropWhile isPyDigit).length
        = l.length := length_takeWhile_add_dropWhile _ _
    have h3 : (l.takeWhile isPyDigit).length ≠ 0 := by
      intro hz
      exact hne (by simpa [List.isEmpty_iff, List.length_eq_zero] using hz)
    omega

theorem matchNumLine_hasDigit {l : List Char} {r : List Char × Bool}
    (h : matchNumLine l = some r) : ∃ c ∈ l, isPyDigit c = true := by
  unfold matchNumLine at h
  split at h
  · exact absurd h (by simp)
  · rename_i hne
    match hm : l with
    | [] => simp [List.takeWhile] at hne
    | d :: rest =>
      subst hm
      by_cases hd : isPyDigit d = true
      · exact ⟨d, by simp, hd⟩
      · rw [List.takeWhile_cons, if_neg (by simp [hd])] at hne
        simp at hne


/-! ### Generic `re.sub(pattern, '', text)` for unanchored patterns.
Scan left to right; at each position either delete a match (continuing
after it) or keep the character.  Implemented with a fuel argument (the
remaining length bounds the number of steps) so that the function is
structurally recursive and evaluates inside the kernel. -/

def reSubGo (pat : List Char → Option (List Char)) : Nat → List Char → List Char
  | 0, l => l
  | _ + 1, [] => []
  | fuel + 1, c :: rest =>
    match pat (c :: rest) with
    | some r => reSubGo pat fuel r
    | none => c :: reSubGo pat fuel rest

def reSub (pat : List Char → Option (List Char)) (l : List Char) : List Char :=
  reSubGo pat l.length l

theorem reSubGo_nil (pat : List Char → Option (List Char)) (f : Nat) :
    reSubGo pat f [] = [] := by cases f <;> rfl

theorem reSubGo_congr (pat : List Char → Option (List Char))
    (hpat : ∀ {l r : List Char}, pat l = some r → r.length < l.length) :
    ∀ f1 f2 : Nat, ∀ {l : List Char}, l.length ≤ f1 → l.length ≤ f2 →
      reSubGo pat f1 l = reSubGo pat f2 l := by
  intro f1
  induction f1 with
  | zero =>
    intro f2 l h1 _
    have hl : l = [] := List.length_eq_zero.mp (Nat.le_zero.mp h1)
    subst hl
    rw [reSubGo_nil, reSubGo_nil]
  | succ f ih =>
    intro f2 l h1 h2
    match l with
    | [] => rw [reSubGo_nil, reSubGo_nil]
    | c :: rest =>
      match f2 with
      | 0 => simp at h2
      | f2' + 1 =>
        simp only [reSubGo]
        cases hp : pat (c :: rest) with
        | some r =>
          simp only [hp]
          have hr := hpat hp
          simp only [List.length_cons] at h1 h2 hr
          exact ih f2' (by omega) (by omega)
        | none =>
          simp only [hp]
          simp only [List.length_cons] at h1 h2
          rw [ih f2' (by omega) (by omega)]

/-- The one-step unfolding of `reSub` at a nonempty string. -/
theorem reSub_cons (pat : List Char → Option (List Char))
    (hpat : ∀ {l r : List Char}, pat l = some r → r.length < l.length)
    (c : Char) (rest : List Char) :
    reSub pat (c :: rest) = match pat (c :: rest) with
      | some r => reSub pat r
      | none => c :: reSub pat rest := by
  unfold reSub
  simp only [List.length_cons, reSubGo]
  cases hp : pat (c :: rest) with
  | some r =>
    simp only [hp]
    have hr := hpat hp
    simp only [List.length_cons] at hr
    exact reSubGo_congr pat hpat rest.length r.length (by omega) le_rfl
  | none => simp only [hp]

theorem reSub_nil (pat : List Char → Option (List Char)) : reSub pat [] = [] := rfl

/-- If the pattern cannot match anywhere in a string all of whose
characters fail `P` (for a matcher that needs a `P`-character), the
scan is the identity. -/
theorem reSub_eq_self (pat : List Char → Option (List Char))
    (hpat : ∀ {l r : List Char}, pat l = some r → r.length < l.length)
    (P : Char → Bool)
    (hneed : ∀ {l r : List Char}, pat l = some r → ∃ c ∈ l, P c = true)
    {l : List Char} (hl : ∀ c ∈ l, P c = false) : reSub pat l = l := by
  induction l with
  | nil => rfl
  | cons c rest ih =>
    rw [reSub_cons pat hpat]
    cases hp : pat (c :: rest) with
    | some r =>
      obtain ⟨d, hd, hP⟩ := hneed hp
      exact absurd hP (by simp [hl d hd])
    | none =>
      simp only [hp]
      rw [ih (fun d hd => hl d (by simp [hd]))]

/-- `_normalize_text` step 1 as a whole-string substitution. -/
def subCitations (l : List Char) : List Char := reSub matchCitation l

/-- `_normalize_text` step 2 as a whole-string substitution. -/
def subPageRefs (l : List Char) : List Char := reSub matchPageRef l

theorem subCitations_of_noDigit {l : List Char}
    (hl : ∀ c ∈ l, isPyDigit c = false) : subCitations l = l :=
  reSub_eq_self _ matchCitation_length _ matchCitation_hasDigit hl

theorem subPageRefs_of_noDigit {l : List Char}
    (hl : ∀ c ∈ l, isPyDigit c = false) : subPageRefs l = l :=
  reSub_eq_self _ matchPageRef_length _ matchPageRef_hasDigit hl

/-- The MULTILINE scan for `_normalize_text` step 4.  `atStart` records
whether the scan position is at the start of a line; fuel as in
`reSubGo`. -/
def subNumLinesGo : Nat → List Char → Bool → List Char
  | 0, l, _ => l
  | _ + 1, [], _ => []
  | fuel + 1, c :: rest, atStart =>
    if atStart then
      match matchNumLine (c :: rest) with
      | some (r, st) => subNumLinesGo fuel r st
      | none => c :: subNumLinesGo fuel rest (c = '\n')
    else c :: subNumLinesGo fuel rest (c = '\n')

def subNumLines (l : List Char) (atStart : Bool) : List Char :=
  subNumLinesGo l.length l atStart

theorem subNumLinesGo_nil (f : Nat) (b : Bool) : subNumLinesGo f [] b = [] := by
  cases f <;> rfl

theorem subNumLinesGo_congr :
    ∀ f1 f2 : Nat, ∀ {l : List Char} {b : Bool},
      l.length ≤ f1 → l.length ≤ f2 →
      subNumLinesGo f1 l b = subNumLinesGo f2 l b := by
  intro f1
  induction f1 with
  | zero =>
    intro f2 l b h1 _
    have hl : l = [] := List.length_eq_zero.mp (Nat.le_zero.mp h1)
    subst hl
    rw [subNumLinesGo_nil, subNumLinesGo_nil]
  | succ f ih =>
    intro f2 l b h1 h2
    match l with
    | [] => rw [subNumLinesGo_nil, subNumLinesGo_nil]
    | c :: rest =>
      match f2 with
      | 0 => simp at h2
      | f2' + 1 =>
        simp only [subNumLinesGo]
        cases b with
        | false =>
          simp only [Bool.false_eq_true, if_false]
          simp only [List.length_cons] at h1 h2
          rw [ih f2' (by omega) (by omega)]
        | true =>
          simp only [if_true]
          cases hp : matchNumLine (c :: rest) with
          | some rs =>
            simp only [hp]
            have hr := matchNumLine_length hp
            simp only [List.length_cons] at h1 h2 hr
            obtain ⟨r, st⟩ := rs
            simp at hr
            show subNumLinesGo f r st = subNumLinesGo f2' r st
            exact ih f2' (by omega) (by omega)
          | none =>
            simp only [hp]
            simp only [List.length_cons] at h1 h2
            rw [ih f2' (by omega) (by omega)]

theorem subNumLines_cons (c : Char) (rest : List Char) (b : Bool) :
    subNumLines (c :: rest) b = if b then
      match matchNumLine (c :: rest) with
      | some (r, st) => subNumLines r st
      | none => c :: subNumLines rest (c = '\n')
    else c :: subNumLines rest (c = '\n') := by
  unfold subNumLines
  simp only [List.length_cons, subNumLinesGo]
  cases b with
  | false => rfl
  | true =>
    simp only [if_true]
    cases hp : matchNumLine (c :: rest) with
    | some rs =>
      simp only [hp]
      have hr := matchNumLine_length hp
      simp only [List.length_cons] at hr
      obtain ⟨r, st⟩ := rs
      simp at hr
      show subNumLinesGo rest.length r st = subNumLines r st
      exact subNumLinesGo_congr rest.length r.length (by omega) le_rfl
    | none => simp only [hp]

theorem subNumLines_of_noDigit {l : List Char}
    (hl : ∀ c ∈ l, isPyDigit c = false) : ∀ b, subNumLines l b = l := by
  induction l with
  | nil => intro b; rfl
  | cons c rest ih =>
    intro b
    rw [subNumLines_cons]
    have hrest := ih (fun d hd => hl d (by simp [hd]))
    cases b with
    | false => rw [if_neg (by simp), hrest]
    | true =>
      rw [if_pos rfl]
      cases hp : matchNumLine (c :: rest) with
      | some rs =>
        obtain ⟨d, hd, hdig⟩ := matchNumLine_hasDigit hp
        exact absurd hdig (by simp [hl d hd])
      | none =>
        simp only [hp]
        rw [hrest]

/-! ### `_normalize_text` steps 5-7: newline replacement, whitespace
collapse (`re.sub(r'[ \t]+', ' ', text)`) and `str.strip()`. -/

/-- `text.replace('\r\n', ' ').replace('\r', ' ').replace('\n', ' ')`:
each `\r\n` pair (chosen by a left-to-right scan) becomes one space,
every remaining `\r` or `\n` becomes one space. -/
def fixNewlines : List Char → List Char
  | [] => []
  | '\r' :: '\n' :: rest => ' ' :: fixNewlines rest
  | '\r' :: rest => ' ' :: fixNewlines rest
  | '\n' :: rest => ' ' :: fixNewlines rest
  | c :: rest => c :: fixNewlines rest

def isSpaceTab (c : Char) : Bool := c = ' ' || c = '\t'

mutual
/-- `re.sub(r'[ \t]+', ' ', text)` as a two-state scanner: outside a
space/tab run. -/
def collapseSpaces : List Char → List Char
  | [] => []
  | c :: rest =>
    if isSpaceTab c then ' ' :: collapseTail rest else c :: collapseSpaces rest

/-- Inside a space/tab run whose single replacement space was already
emitted. -/
def collapseTail : List Char → List Char
  | [] => []
  | c :: rest =>
    if isSpaceTab c then collapseTail rest else c :: collapseSpaces rest
end

/-- `str.strip()` over the modelled whitespace set. -/
def pyStrip (l : List Char) : List Char :=
  (l.dropWhile isPySpace).rdropWhile isPySpace

/-- `DocumentBuilder._normalize_text` -/
def normalize (l : List Char) : List Char :=
  pyStrip (collapseSpaces (fixNewlines
    (subNumLines (subLeadingNums (subPageRefs (subCitations l))) true)))

example : normalize " 1 2 3".data = "1 2 3".data := by decide
example : normalize (normalize " 1 2 3".data) = [] := by decide
example : normalize "The cat\nsat.".data = "The cat sat.".data := by decide
example : normalize "[14, c. 5] ok".data = "ok".data := by decide

/-! ### Facts about steps 5-7 used for the idempotence analysis. -/

theorem mem_fixNewlines (l : List Char) :
    ∀ c ∈ fixNewlines l, c ∈ l ∨ c = ' ' := by
  induction l using fixNewlines.induct with
  | case1 => simp [fixNewlines]
  | case2 rest ih =>
    intro c hc
    rw [fixNewlines] at hc
    rcases List.mem_cons.mp hc with hc | hc
    · exact Or.inr hc
    · rcases ih c hc with h' | h'
      · exact Or.inl (by simp [h'])
      · exact Or.inr h'
  | case3 rest hne ih =>
    intro c hc
    rw [fixNewlines] at hc
    · rcases List.mem_cons.mp hc with hc | hc
      · exact Or.inr hc
      · rcases ih c hc with h' | h'
        · exact Or.inl (by simp [h'])
        · exact Or.inr h'
    · exact hne
  | case4 rest ih =>
    intro c hc
    rw [fixNewlines] at hc
    rcases List.mem_cons.mp hc with hc | hc
    · exact Or.inr hc
    · rcases ih c hc with h' | h'
      · exact Or.inl (by simp [h'])
      · exact Or.inr h'
  | case5 c' rest h1 h2 h3 ih =>
    intro c hc
    rw [fixNewlines] at hc
    · rcases List.mem_cons.mp hc with hc | hc
      · exact Or.inl (by simp [hc])
      · rcases ih c hc with h' | h'
        · exact Or.inl (by simp [h'])
        · exact Or.inr h'
    · exact h1
    · exact h2
    · exact h3

theorem fixNewlines_no_crlf (l : List Char) :
    ∀ c ∈ fixNewlines l, ¬(c = '\r' ∨ c = '\n') := by
  induction l using fixNewlines.induct with
  | case1 => simp [fixNewlines]
  | case2 rest ih =>
    intro c hc
    rw [fixNewlines] at hc
    rcases List.mem_cons.mp hc with hc | hc
    · subst hc; simp
    · exact ih c hc
  | case3 rest hne ih =>
    intro c hc
    rw [fixNewlines] at hc
    · rcases List.mem_cons.mp hc with hc | hc
      · subst hc; simp
      · exact ih c hc
    · exact hne
  | case4 rest ih =>
    intro c hc
    rw [fixNewlines] at hc
    rcases List.mem_cons.mp hc with hc | hc
    · subst hc; simp
    · exact ih c hc
  | case5 c' rest h1 h2 h3 ih =>
    intro c hc
    rw [fixNewlines] at hc
    · rcases List.mem_cons.mp hc with hc | hc
      · subst hc
        intro habs
        rcases habs with habs | habs
        · exact h2 habs
        · exact h3 habs
      · exact ih c hc
    · exact h1
    · exact h2
    · exact h3

theorem fixNewlines_eq_self (l : List Char)
    (h : ∀ c ∈ l, ¬(c = '\r' ∨ c = '\n')) : fixNewlines l = l := by
  induction l using fixNewlines.induct with
  | case1 => rfl
  | case2 rest ih => exact absurd (h '\r' (by simp)) (by simp)
  | case3 rest hne ih => exact absurd (h '\r' (by simp)) (by simp)
  | case4 rest ih => exact absurd (h '\n' (by simp)) (by simp)
  | case5 c' rest h1 h2 h3 ih =>
    rw [fixNewlines]
    · rw [ih (fun d hd => h d (by simp [hd]))]
    · exact h1
    · exact h2
    · exact h3

/-- No tab, and no two adjacent space/tab characters: exactly the
strings on which the whitespace-collapse pass is the identity. -/
def stPair (a : Char) : List Char → Bool
  | [] => true
  | b :: _ => !(isSpaceTab a && isSpaceTab b)

def stFree : List Char → Bool
  | [] => true
  | a :: t => (!(a = '\t')) && stPair a t && stFree t

theorem stFree_cons_iff {a : Char} {t : List Char} :
    stFree (a :: t) = true ↔
      (¬ a = '\t' ∧ stPair a t = true ∧ stFree t = true) := by
  simp [stFree, and_assoc]

theorem stFree_append_right : ∀ xs ys : List Char,
    stFree (xs ++ ys) = true → stFree ys = true := by
  intro xs
  induction xs with
  | nil => intro ys h; exact h
  | cons a xs' ih =>
    intro ys h
    rw [List.cons_append, stFree_cons_iff] at h
    exact ih ys h.2.2

theorem stFree_append_left : ∀ xs ys : List Char,
    stFree (xs ++ ys) = true → stFree xs = true := by
  intro xs
  induction xs with
  | nil => intro _ _; rfl
  | cons a xs' ih =>
    intro ys h
    rw [List.cons_append, stFree_cons_iff] at h
    rw [stFree_cons_iff]
    refine ⟨h.1, ?_, ih ys h.2.2⟩
    cases hxs : xs' with
    | nil => rfl
    | cons b t =>
      have heq : stPair a (xs' ++ ys) = stPair a (b :: t) := by
        rw [hxs]; rfl
      rw [← heq]
      exact h.2.1

theorem stFree_infix_closed {l₁ l₂ : List Char} (h : l₁ <:+: l₂)
    (h2 : stFree l₂ = true) : stFree l₁ = true := by
  obtain ⟨s, t, hst⟩ := h
  subst hst
  exact stFree_append_right s l₁ (stFree_append_left (s ++ l₁) t h2)

theorem collapse_mem (l : List Char) :
    (∀ c ∈ collapseSpaces l, c ∈ l ∨ c = ' ') ∧
      (∀ c ∈ collapseTail l, c ∈ l ∨ c = ' ') := by
  induction l with
  | nil => constructor <;> simp [collapseSpaces, collapseTail]
  | cons a rest ih =>
    constructor
    · intro c hc
      rw [collapseSpaces] at hc
      by_cases hst : isSpaceTab a = true
      · rw [if_pos hst] at hc
        rcases List.mem_cons.mp hc with hc | hc
        · exact Or.inr hc
        · rcases ih.2 c hc with h' | h'
          · exact Or.inl (by simp [h'])
          · exact Or.inr h'
      · rw [if_neg (by simp [hst])] at hc
        rcases List.mem_cons.mp hc with hc | hc
        · exact Or.inl (by simp [hc])
        · rcases ih.1 c hc with h' | h'
          · exact Or.inl (by simp [h'])
          · exact Or.inr h'
    · intro c hc
      rw [collapseTail] at hc
      by_cases hst : isSpaceTab a = true
      · rw [if_pos hst] at hc
        rcases ih.2 c hc with h' | h'
        · exact Or.inl (by simp [h'])
        · exact Or.inr h'
      · rw [if_neg (by simp [hst])] at hc
        rcases List.mem_cons.mp hc with hc | hc
        · exact Or.inl (by simp [hc])
        · rcases ih.1 c hc with h' | h'
          · exact Or.inl (by simp [h'])
          · exact Or.inr h'

theorem collapse_stFree (l : List Char) :
    stFree (collapseSpaces l) = true ∧ stFree (collapseTail l) = true ∧
      (∀ a t, collapseTail l = a :: t → isSpaceTab a = false) := by
  induction l with
  | nil => refine ⟨rfl, rfl, ?_⟩; intro a t h; simp [collapseTail] at h
  | cons c rest ih =>
    by_cases hst : isSpaceTab c = true
    · refine ⟨?_, ?_, ?_⟩
      · rw [collapseSpaces, if_pos hst, stFree_cons_iff]
        refine ⟨by decide, ?_, ih.2.1⟩
        cases ht : collapseTail rest with
        | nil => rfl
        | cons a t =>
          have ha := ih.2.2 a t ht
          simp [stPair, ha]
      · rw [collapseTail, if_pos hst]
        exact ih.2.1
      · intro a t h
        rw [collapseTail, if_pos hst] at h
        exact ih.2.2 a t h
    · have hnotab : ¬ c = '\t' := by
        intro he; exact hst (by simp [isSpaceTab, he])
      have hcons : stFree (c :: collapseSpaces rest) = true := by
        rw [stFree_cons_iff]
        refine ⟨hnotab, ?_, ih.1⟩
        cases hcs : collapseSpaces rest with
        | nil => rfl
        | cons a t => simp [stPair, hst]
      refine ⟨?_, ?_, ?_⟩
      · rw [collapseSpaces, if_neg hst]
        exact hcons
      · rw [collapseTail, if_neg hst]
        exact hcons
      · intro a t h
        rw [collapseTail, if_neg hst] at h
        cases h
        simpa using hst

theorem collapse_eq_self_of_stFree (l : List Char) (h : stFree l = true) :
    collapseSpaces l = l := by
  induction l with
  | nil => rfl
  | cons c rest ih =>
    rw [stFree_cons_iff] at h
    obtain ⟨htab, hpair, hrest⟩ := h
    by_cases hst : isSpaceTab c = true
    · have hc : c = ' ' := by
        rcases (by simpa [isSpaceTab] using hst : c = ' ' ∨ c = '\t') with h' | h'
        · exact h'
        · exact absurd h' htab
      rw [collapseSpaces, if_pos hst]
      subst hc
      cases rest with
      | nil => rw [collapseTail]
      | cons b t =>
        have hb : isSpaceTab b = false := by
          simp only [stPair, hst] at hpair
          simpa using hpair
        rw [collapseTail, if_neg (by simp [hb])]
        have h2 := ih hrest
        rw [collapseSpaces, if_neg (by simp [hb])] at h2
        simp only [List.cons.injEq] at h2
        rw [h2.2]
    · rw [collapseSpaces, if_neg hst]
      rw [ih hrest]

theorem pyStrip_infix_self (l : List Char) : pyStrip l <:+: l :=
  (List.rdropWhile_prefix isPySpace (l.dropWhile isPySpace)).isInfix.trans
    (List.dropWhile_suffix isPySpace).isInfix

theorem pyStrip_subset {c : Char} {l : List Char} (h : c ∈ pyStrip l) : c ∈ l :=
  (pyStrip_infix_self l).subset h

theorem pyStrip_idem (l : List Char) : pyStrip (pyStrip l) = pyStrip l := by
  unfold pyStrip
  have h1 : ((l.dropWhile isPySpace).rdropWhile isPySpace).dropWhile isPySpace
      = (l.dropWhile isPySpace).rdropWhile isPySpace := by
    cases hY : (l.dropWhile isPySpace).rdropWhile isPySpace with
    | nil => rfl
    | cons y ys =>
      have hpre := List.rdropWhile_prefix (l := l.dropWhile isPySpace) isPySpace
      rw [hY] at hpre
      obtain ⟨t, ht⟩ := hpre
      have hX : l.dropWhile isPySpace = y :: (ys ++ t) := by
        rw [← ht]; simp
      have hne : l.dropWhile isPySpace ≠ [] := by rw [hX]; simp
      have hnot := List.head_dropWhile_not isPySpace l hne
      rw [List.dropWhile_cons]
      have hy : isPySpace y = false := by
        have hh : (l.dropWhile isPySpace).head hne = y := by
          simp [hX]
        rw [hh] at hnot
        exact hnot
      rw [if_neg (by simp [hy])]
  rw [h1, List.rdropWhile_idempotent]

/-- On digit-free input the four artifact-stripping substitutions are
the identity, so `_normalize_text` is just the whitespace pipeline. -/
theorem normalize_of_noDigit {l : List Char}
    (h : ∀ c ∈ l, isPyDigit c = false) :
    normalize l = pyStrip (collapseSpaces (fixNewlines l)) := by
  unfold normalize
  rw [subCitations_of_noDigit h, subPageRefs_of_noDigit h,
    subLeadingNums_of_noDigit h, subNumLines_of_noDigit h]

theorem noDigit_normalize {l : List Char}
    (h : ∀ c ∈ l, isPyDigit c = false) :
    ∀ c ∈ normalize l, isPyDigit c = false := by
  rw [normalize_of_noDigit h]
  intro c hc
  have h1 : c ∈ collapseSpaces (fixNewlines l) := pyStrip_subset hc
  rcases (collapse_mem (fixNewlines l)).1 c h1 with h2 | h2
  · rcases mem_fixNewlines l c h2 with h3 | h3
    · exact h c h3
    · subst h3; decide
  · subst h2; decide

/-- Claim C5, counterexample: `_normalize_text` is not idempotent.
On `" 1 2 3"` one application yields `"1 2 3"` (the leading space
blocks the `^\d+\s+\d+\s*` rule, which fires only at position 0), but
a second application strips `"1 2 "` and then the digit-only remains
collapse to the empty string. -/
theorem normalize_not_idempotent :
    normalize (normalize " 1 2 3".data) ≠ normalize " 1 2 3".data := by
  decide

/-- Claim C5 (amended): the normalizer is idempotent on every input
containing no decimal digit (all four artifact-stripping rules need a
digit to fire, and the whitespace pipeline — newline replacement,
space/tab-run collapse, strip — is idempotent); it is not idempotent in
general. -/
theorem normalize_idem_of_noDigit (l : List Char)
    (h : ∀ c ∈ l, isPyDigit c = false) :
    normalize (normalize l) = normalize l := by
  have hx := normalize_of_noDigit h
  rw [normalize_of_noDigit (noDigit_normalize h), hx]
  have hfix : fixNewlines (pyStrip (collapseSpaces (fixNewlines l)))
      = pyStrip (collapseSpaces (fixNewlines l)) := by
    apply fixNewlines_eq_self
    intro c hc
    rcases (collapse_mem (fixNewlines l)).1 c (pyStrip_subset hc) with h2 | h2
    · exact fixNewlines_no_crlf l c h2
    · subst h2; decide
  rw [hfix]
  have hcol : collapseSpaces (pyStrip (collapseSpaces (fixNewlines l)))
      = pyStrip (collapseSpaces (fixNewlines l)) :=
    collapse_eq_self_of_stFree _
      (stFree_infix_closed (pyStrip_infix_self _) (collapse_stFree (fixNewlines l)).1)
  rw [hcol, pyStrip_idem]

/-- Witness for `normalize_idem_of_noDigit` at a concrete digit-free
input. -/
theorem normalize_idem_of_noDigit_witness :
    (∀ c ∈ "The cat\nsat.".data, isPyDigit c = false) ∧
      normalize (normalize "The cat\nsat.".data) = normalize "The cat\nsat.".data :=
  ⟨by decide, normalize_idem_of_noDigit "The cat\nsat.".data (by decide)⟩

/-! ### `DocumentBuilder._copy_run_formatting`

Run formatting profile (python-docx attributes used by the source).
Enum-valued attributes (`underline`, `highlight_color`) are encoded as
`Option Nat` with `0` the falsy member (`WD_UNDERLINE.NONE`); `rgb` is
an always-truthy value object, so its Python truthiness is `isSome`;
`font.name` is a string, falsy when empty; `font.size` is a length,
falsy when zero. -/

structure Fmt where
  bold : Option Bool := none
  italic : Option Bool := none
  underline : Option Nat := none
  fontName : Option (List Char) := none
  fontSize : Option Nat := none
  colorRgb : Option Nat := none
  highlight : Option Nat := none
deriving DecidableEq

inductive RunAttr
  | bold | italic | underline | fontName | fontSize | colorRgb | highlight
deriving DecidableEq

/-- The fixed order in which `_copy_run_formatting` copies attributes. -/
def attrOrder : List RunAttr :=
  [.bold, .italic, .underline, .fontName, .fontSize, .colorRgb, .highlight]

/-- One guarded attribute copy, mirroring the `if` conditions in the
source line by line. -/
def applyAttr (src : Fmt) (tgt : Fmt) : RunAttr → Fmt
  | .bold => match src.bold with
    | some b => { tgt with bold := some b }
    | none => tgt
  | .italic => match src.italic with
    | some b => { tgt with italic := some b }
    | none => tgt
  | .underline => match src.underline with
    | some u => if u ≠ 0 then { tgt with underline := some u } else tgt
    | none => tgt
  | .fontName => match src.fontName with
    | some nm => if nm ≠ [] then { tgt with fontName := some nm } else tgt
    | none => tgt
  | .fontSize => match src.fontSize with
    | some sz => if sz ≠ 0 then { tgt with fontSize := some sz } else tgt
    | none => tgt
  | .colorRgb => match src.colorRgb with
    | some cr => { tgt with colorRgb := some cr }
    | none => tgt
  | .highlight => match src.highlight with
    | some hl => if hl ≠ 0 then { tgt with highlight := some hl } else tgt
    | none => tgt

/-- The body of `_copy_run_formatting`: one `try` block wraps all seven
copies, so the first failing attribute access raises, the `except`
swallows the exception (the function returns normally), and every
attribute after the failing one is left uncopied.  `fails` models which
attribute accesses raise. -/
def copyRunFormattingLoop (src : Fmt) (fails : RunAttr → Bool) :
    List RunAttr → Fmt → Fmt
  | [], tgt => tgt
  | a :: rest, tgt =>
    if fails a then tgt
    else copyRunFormattingLoop src fails rest (applyAttr src tgt a)

def copyRunFormatting (src : Fmt) (fails : RunAttr → Bool) (tgt : Fmt) : Fmt :=
  copyRunFormattingLoop src fails attrOrder tgt

/-- A fresh run produced by `paragraph.add_run` carries no explicit
formatting. -/
def blankFmt : Fmt := {}

def cexSrcFmt : Fmt :=
  { bold := some true, italic := some true, underline := some 1,
    fontName := some "Arial".data, fontSize := some 12,
    colorRgb := some 255, highlight := some 5 }

def cexFails (a : RunAttr) : Bool := a = RunAttr.colorRgb

/-- Claim C8, counterexample: with only the color-attribute access
failing, the highlight attribute (which itself would copy fine and
comes after color in the fixed order) is NOT copied: the single
`try/except` aborts the remaining attribute copies at the first
failure. -/
theorem copyRunFormatting_cex :
    cexFails RunAttr.highlight = false ∧ cexSrcFmt.highlight = some 5 ∧
      (copyRunFormatting cexSrcFmt cexFails blankFmt).highlight = none ∧
      (copyRunFormatting cexSrcFmt cexFails blankFmt).bold = some true := by
  decide

/-- Claim C8 (amended): `_copy_run_formatting` copies the attributes
one by one in the fixed order bold, italic, underline, font name, size,
color, highlight, inside a single `try/except`; it always returns
normally (never aborts the surrounding replacement), and it applies
exactly the attributes strictly before the first failing one — a
failure aborts the copy of all remaining attributes. -/
theorem copyRunFormatting_stops_at_first_failure
    (src : Fmt) (fails : RunAttr → Bool) (tgt : Fmt) :
    copyRunFormatting src fails tgt =
      (attrOrder.takeWhile (fun a => !(fails a))).foldl (applyAttr src) tgt := by
  unfold copyRunFormatting
  induction attrOrder generalizing tgt with
  | nil => rfl
  | cons a rest ih =>
    rw [copyRunFormattingLoop, List.takeWhile_cons]
    by_cases hf : fails a = true
    · rw [if_pos hf, hf]
      rfl
    · rw [if_neg (by simp [hf]), (by simp [hf] : (!(fails a)) = true), if_pos rfl]
      rw [ih]
      rfl

/-! ### `DocumentBuilder._replace_in_paragraph_with_formatting`:
the run walk (source lines 523-604).

A `Run` is a text slice with one formatting profile; a paragraph is a
list of runs whose concatenated text is the paragraph text.  The walk
classifies each run against the located span `[startIdx, endIdx)` and
rebuilds the run list; `new_runs` entries are modelled as `Piece`s,
tagged by whether the entry is a kept slice or the guarded emission of
the replacement text. -/

structure Run where
  text : List Char
  fmt : Fmt
deriving DecidableEq

inductive Piece
  | keep (text : List Char) (src : Run)
  | repl (text : List Char) (src : Run)
deriving DecidableEq

def pieceText : Piece → List Char
  | .keep t _ => t
  | .repl t _ => t

def piecesText (ps : List Piece) : List Char := (ps.map pieceText).flatten

def replCount : List Piece → Nat
  | [] => 0
  | .keep _ _ :: ps => replCount ps
  | .repl _ _ :: ps => 1 + replCount ps

def textOf (runs : List Run) : List Char := (runs.map Run.text).flatten

/-- The `for run in paragraph.runs` loop: `pos` is `current_pos`,
`added` is `replacement_added`. -/
def walkRuns (startIdx endIdx : Nat) (repl : List Char) :
    List Run → Nat → Bool → List Piece × Bool
  | [], _, added => ([], added)
  | r :: rs, pos, added =>
    let runEnd := pos + r.text.length
    -- Case 1: run completely before the replacement area
    if runEnd ≤ startIdx then
      let rec1 := walkRuns startIdx endIdx repl rs runEnd added
      (.keep r.text r :: rec1.1, rec1.2)
    -- Case 2: run completely after the replacement area
    else if pos ≥ endIdx then
      let rec2 := walkRuns startIdx endIdx repl rs runEnd added
      (.keep r.text r :: rec2.1, rec2.2)
    -- Case 3: run contains the start of the replacement area
    else if pos < startIdx ∧ runEnd > startIdx then
      let before := r.text.take (startIdx - pos)
      let emitted :=
        (if before ≠ [] then [Piece.keep before r] else []) ++
        (if !added then [Piece.repl repl r] else []) ++
        (if runEnd ≥ endIdx then
          (if r.text.drop (endIdx - pos) ≠ [] then
            [Piece.keep (r.text.drop (endIdx - pos)) r] else [])
         else [])
      let rec3 := walkRuns startIdx endIdx repl rs runEnd true
      (emitted ++ rec3.1, rec3.2)
    -- Case 4: run completely within the replacement area
    else if pos ≥ startIdx ∧ runEnd ≤ endIdx then
      let emitted := if !added then [Piece.repl repl r] else []
      let rec4 := walkRuns startIdx endIdx repl rs runEnd true
      (emitted ++ rec4.1, rec4.2)
    -- Case 5: run contains the end of the replacement area
    else if pos < endIdx ∧ runEnd > endIdx then
      let emitted :=
        (if !added then [Piece.repl repl r] else []) ++
        (if r.text.drop (endIdx - pos) ≠ [] then
          [Piece.keep (r.text.drop (endIdx - pos)) r] else [])
      let rec5 := walkRuns startIdx endIdx repl rs runEnd true
      (emitted ++ rec5.1, rec5.2)
    else
      -- no branch taken: nothing appended, position advances
      walkRuns startIdx endIdx repl rs runEnd added

/-- The post-walk fallback scan (source lines 583-593): find the run
whose offset range contains `startIdx`, together with its index. -/
def findStartRun (startIdx : Nat) : List Run → Nat → Option (Nat × Run)
  | [], _ => none
  | r :: rs, pos =>
    if pos ≤ startIdx ∧ startIdx < pos + r.text.length then some (0, r)
    else
      match findStartRun startIdx rs (pos + r.text.length) with
      | some (i, rr) => some (i + 1, rr)
      | none => none

/-- Python `list.insert(i, x)` (appends when the index is past the
end). -/
def insertPieceAt : List Piece → Nat → Piece → List Piece
  | ps, 0, x => x :: ps
  | [], _ + 1, x => [x]
  | p :: ps, n + 1, x => p :: insertPieceAt ps n x

/-- The full `new_runs` construction: walk, then if the replacement was
never emitted insert it before the run containing `startIdx`. -/
def rebuildPieces (runs : List Run) (startIdx endIdx : Nat)
    (repl : List Char) : List Piece :=
  match walkRuns startIdx endIdx repl runs 0 false with
  | (ps, true) => ps
  | (ps, false) =>
    match findStartRun startIdx runs 0 with
    | some (i, r) => insertPieceAt ps i (.repl repl r)
    | none => ps

/-- `paragraph.clear()` plus re-adding each nonempty `new_runs` entry
with formatting copied from its source run (no attribute access fails
in the pure model). -/
def rebuildParagraph (runs : List Run) (startIdx endIdx : Nat)
    (repl : List Char) : List Run :=
  (rebuildPieces runs startIdx endIdx repl).foldr
    (fun p acc =>
      if pieceText p ≠ [] then
        { text := pieceText p,
          fmt := copyRunFormatting (match p with
            | .keep _ src => src.fmt
            | .repl _ src => src.fmt) (fun _ => false) blankFmt } :: acc
      else acc) []

example :
    rebuildPieces [⟨"ab".data, blankFmt⟩, ⟨"cd".data, blankFmt⟩] 2 2 "X".data
      = [Piece.keep "ab".data ⟨"ab".data, blankFmt⟩,
         Piece.repl "X".data ⟨"cd".data, blankFmt⟩,
         Piece.keep "cd".data ⟨"cd".data, blankFmt⟩] := by decide

example :
    piecesText (rebuildPieces [⟨"ab".data, blankFmt⟩, ⟨"cd".data, blankFmt⟩]
      1 3 "XY".data) = "aXYd".data := by decide

theorem piecesText_append (a b : List Piece) :
    piecesText (a ++ b) = piecesText a ++ piecesText b := by
  simp [piecesText]

theorem piecesText_cons (p : Piece) (ps : List Piece) :
    piecesText (p :: ps) = pieceText p ++ piecesText ps := by
  simp [piecesText]

theorem replCount_append (a b : List Piece) :
    replCount (a ++ b) = replCount a + replCount b := by
  induction a with
  | nil => simp [replCount]
  | cons p ps ih =>
    cases p <;> simp [replCount, ih] <;> omega

theorem piecesText_condKeep (t : List Char) (r : Run) :
    piecesText (if t ≠ [] then [Piece.keep t r] else []) = t := by
  by_cases h : t = [] <;> simp [h, piecesText, pieceText]

theorem replCount_condKeep (t : List Char) (r : Run) :
    replCount (if t ≠ [] then [Piece.keep t r] else []) = 0 := by
  by_cases h : t = [] <;> simp [h, replCount]

theorem textOf_cons (r : Run) (rs : List Run) :
    textOf (r :: rs) = r.text ++ textOf rs := by
  simp [textOf]

theorem piecesText_mapKeep (runs : List Run) :
    piecesText (runs.map (fun r => Piece.keep r.text r)) = textOf runs := by
  induction runs with
  | nil => rfl
  | cons r rs ih => simp [piecesText, pieceText, textOf] at ih ⊢; exact ih

theorem replCount_mapKeep (runs : List Run) :
    replCount (runs.map (fun r => Piece.keep r.text r)) = 0 := by
  induction runs with
  | nil => rfl
  | cons r rs ih => simpa [replCount] using ih

/-- `T.take s ++ mid ++ T.drop e`: the text of a paragraph after the
span `[s, e)` is replaced by `mid`. -/
def splice (T : List Char) (s e : Nat) (mid : List Char) : List Char :=
  T.take s ++ mid ++ T.drop e

theorem splice_before {A B m : List Char} {s e : Nat}
    (h1 : A.length ≤ s) (hse : s ≤ e) :
    splice (A ++ B) s e m = A ++ splice B (s - A.length) (e - A.length) m := by
  unfold splice
  rw [List.take_append_eq_append_take, List.drop_append_eq_append_drop,
    List.take_of_length_le h1, List.drop_eq_nil_of_le (le_trans h1 hse)]
  simp

theorem splice_zero {T m : List Char} : splice T 0 0 m = m ++ T := by
  simp [splice]

theorem splice_straddle_short {A B m : List Char} {s e : Nat}
    (hs : s < A.length) (he : e ≤ A.length) :
    splice (A ++ B) s e m = A.take s ++ (m ++ (A.drop e ++ B)) := by
  unfold splice
  rw [List.take_append_eq_append_take, List.drop_append_eq_append_drop]
  have h1 : s - A.length = 0 := by omega
  have h2 : e - A.length = 0 := by omega
  simp [h1, h2]

theorem splice_straddle_long {A B m : List Char} {s e : Nat}
    (hs : s < A.length) (he : A.length ≤ e) :
    splice (A ++ B) s e m = A.take s ++ (m ++ B.drop (e - A.length)) := by
  unfold splice
  rw [List.take_append_eq_append_take, List.drop_append_eq_append_drop,
    List.drop_eq_nil_of_le he]
  have h1 : s - A.length = 0 := by omega
  simp [h1]

theorem splice_inside_long {A B m : List Char} {e : Nat} (he : A.length ≤ e) :
    splice (A ++ B) 0 e m = m ++ B.drop (e - A.length) := by
  unfold splice
  rw [List.drop_append_eq_append_drop, List.drop_eq_nil_of_le he]
  simp

theorem splice_inside_short {A B m : List Char} {e : Nat} (he : e < A.length) :
    splice (A ++ B) 0 e m = m ++ (A.drop e ++ B) := by
  unfold splice
  rw [List.drop_append_eq_append_drop]
  have h2 : e - A.length = 0 := by omega
  simp [h2]

/-- Once the replacement has been emitted, the rest of the walk keeps
exactly the text outside the span and emits nothing further. -/
theorem walkRuns_true (s e : Nat) (repl : List Char) (hse : s ≤ e) :
    ∀ (runs : List Run) (pos : Nat),
      (walkRuns s e repl runs pos true).2 = true ∧
      replCount (walkRuns s e repl runs pos true).1 = 0 ∧
      piecesText (walkRuns s e repl runs pos true).1 =
        splice (textOf runs) (s - pos) (e - pos) [] := by
  intro runs
  induction runs with
  | nil =>
    intro pos
    refine ⟨rfl, rfl, by simp [walkRuns, textOf, piecesText, splice]⟩
  | cons r rs ih =>
    intro pos
    obtain ⟨ihb, ihc, iht⟩ := ih (pos + r.text.length)
    by_cases h1 : pos + r.text.length ≤ s
    · have heq : walkRuns s e repl (r :: rs) pos true =
          (Piece.keep r.text r :: (walkRuns s e repl rs (pos + r.text.length) true).1,
           (walkRuns s e repl rs (pos + r.text.length) true).2) := by
        simp only [walkRuns]
        rw [if_pos h1]
      rw [heq]
      refine ⟨ihb, by simpa [replCount] using ihc, ?_⟩
      have hsub1 : s - (pos + r.text.length) = (s - pos) - r.text.length := by omega
      have hsub2 : e - (pos + r.text.length) = (e - pos) - r.text.length := by omega
      simp only [piecesText, List.map_cons, List.flatten_cons, pieceText]
      show r.text ++ piecesText (walkRuns s e repl rs (pos + r.text.length) true).1 = _
      rw [iht, textOf_cons, splice_before (by omega) (by omega), hsub1, hsub2]
    · by_cases h2 : pos ≥ e
      · have heq : walkRuns s e repl (r :: rs) pos true =
            (Piece.keep r.text r :: (walkRuns s e repl rs (pos + r.text.length) true).1,
             (walkRuns s e repl rs (pos + r.text.length) true).2) := by
          simp only [walkRuns]
          rw [if_neg h1, if_pos h2]
        rw [heq]
        refine ⟨ihb, by simpa [replCount] using ihc, ?_⟩
        have hs0 : s - pos = 0 := by omega
        have he0 : e - pos = 0 := by omega
        have hs0' : s - (pos + r.text.length) = 0 := by omega
        have he0' : e - (pos + r.text.length) = 0 := by omega
        simp only [piecesText, List.map_cons, List.flatten_cons, pieceText]
        show r.text ++ piecesText (walkRuns s e repl rs (pos + r.text.length) true).1 = _
        rw [iht, textOf_cons, hs0, he0, hs0', he0', splice_zero, splice_zero]
        simp
      · by_cases h3 : pos < s ∧ pos + r.text.length > s
        · have heq : walkRuns s e repl (r :: rs) pos true =
              (((if r.text.take (s - pos) ≠ [] then [Piece.keep (r.text.take (s - pos)) r] else []) ++
                (if pos + r.text.length ≥ e then
                  (if r.text.drop (e - pos) ≠ [] then [Piece.keep (r.text.drop (e - pos)) r] else [])
                 else [])) ++
                (walkRuns s e repl rs (pos + r.text.length) true).1,
               (walkRuns s e repl rs (pos + r.text.length) true).2) := by
            simp only [walkRuns]
            rw [if_neg h1, if_neg h2, if_pos h3]
            simp
          rw [heq]
          refine ⟨ihb, ?_, ?_⟩
          · rw [replCount_append, replCount_append, replCount_condKeep, ihc]
            by_cases h4 : pos + r.text.length ≥ e
            · rw [if_pos h4, replCount_condKeep]
            · rw [if_neg h4]; rfl
          · rw [piecesText_append, piecesText_append, piecesText_condKeep, iht, textOf_cons]
            by_cases h4 : pos + r.text.length ≥ e
            · rw [if_pos h4, piecesText_condKeep]
              have hs0' : s - (pos + r.text.length) = 0 := by omega
              have he0' : e - (pos + r.text.length) = 0 := by omega
              rw [hs0', he0', splice_zero,
                splice_straddle_short (by omega) (by omega)]
              simp
            · rw [if_neg h4]
              have hs0' : s - (pos + r.text.length) = 0 := by omega
              rw [hs0', splice_straddle_long (by omega) (by omega)]
              have hsub2 : e - (pos + r.text.length) = (e - pos) - r.text.length := by omega
              rw [hsub2]
              simp [splice, piecesText]
        · by_cases h4 : pos ≥ s ∧ pos + r.text.length ≤ e
          · have heq : walkRuns s e repl (r :: rs) pos true =
                ((walkRuns s e repl rs (pos + r.text.length) true).1,
                 (walkRuns s e repl rs (pos + r.text.length) true).2) := by
              simp only [walkRuns]
              rw [if_neg h1, if_neg h2, if_neg h3, if_pos h4]
              simp
            rw [heq]
            refine ⟨ihb, ihc, ?_⟩
            rw [iht, textOf_cons]
            have hs0 : s - pos = 0 := by omega
            have hs0' : s - (pos + r.text.length) = 0 := by omega
            have hsub2 : e - (pos + r.text.length) = (e - pos) - r.text.length := by omega
            rw [hs0, hs0', hsub2, splice_inside_long (by omega)]
            simp [splice]
          · by_cases h5 : pos < e ∧ pos + r.text.length > e
            · have heq : walkRuns s e repl (r :: rs) pos true =
                  ((if r.text.drop (e - pos) ≠ [] then [Piece.keep (r.text.drop (e - pos)) r] else []) ++
                    (walkRuns s e repl rs (pos + r.text.length) true).1,
                   (walkRuns s e repl rs (pos + r.text.length) true).2) := by
                simp only [walkRuns]
                rw [if_neg h1, if_neg h2, if_neg h3, if_neg h4, if_pos h5]
                simp
              rw [heq]
              refine ⟨ihb, by rw [replCount_append, replCount_condKeep, ihc], ?_⟩
              rw [piecesText_append, piecesText_condKeep, iht, textOf_cons]
              have hs0 : s - pos = 0 := by omega
              have hs0' : s - (pos + r.text.length) = 0 := by omega
              have he0' : e - (pos + r.text.length) = 0 := by omega
              rw [hs0, hs0', he0', splice_zero, splice_inside_short (by omega)]
              simp
            · exact absurd hse (by omega)

/-- Every run wholly at or past `endIdx` is kept verbatim and the
emitted-flag never turns on. -/
theorem walkRuns_past_end (s e : Nat) (repl : List Char) (hse : s ≤ e) :
    ∀ (runs : List Run) (pos : Nat), e ≤ pos →
      walkRuns s e repl runs pos false =
        (runs.map (fun r => Piece.keep r.text r), false) := by
  intro runs
  induction runs with
  | nil => intro pos _; rfl
  | cons r rs ih =>
    intro pos hpos
    by_cases h1 : pos + r.text.length ≤ s
    · have heq : walkRuns s e repl (r :: rs) pos false =
          (Piece.keep r.text r :: (walkRuns s e repl rs (pos + r.text.length) false).1,
           (walkRuns s e repl rs (pos + r.text.length) false).2) := by
        simp only [walkRuns]
        rw [if_pos h1]
      rw [heq, ih (pos + r.text.length) (by omega)]
      simp
    · have heq : walkRuns s e repl (r :: rs) pos false =
          (Piece.keep r.text r :: (walkRuns s e repl rs (pos + r.text.length) false).1,
           (walkRuns s e repl rs (pos + r.text.length) false).2) := by
        simp only [walkRuns]
        rw [if_neg h1, if_pos (by omega : pos ≥ e)]
      rw [heq, ih (pos + r.text.length) (by omega)]
      simp

/-- Each run lies wholly before `startIdx` or wholly at/after
`endIdx`. -/
def runsOutside (s e : Nat) : List Run → Nat → Prop
  | [], _ => True
  | r :: rs, pos =>
    (pos + r.text.length ≤ s ∨ e ≤ pos) ∧ runsOutside s e rs (pos + r.text.length)

/-- The walk starting with the emitted-flag off: either some run
overlaps the span — then the flag comes on, the replacement is emitted
exactly once and the rebuilt text is the splice — or every run is
outside the span and the walk keeps everything verbatim with the flag
still off. -/
theorem walkRuns_false (s e : Nat) (repl : List Char) (hse : s ≤ e) :
    ∀ (runs : List Run) (pos : Nat),
      ((walkRuns s e repl runs pos false).2 = false →
        (walkRuns s e repl runs pos false).1 =
          runs.map (fun r => Piece.keep r.text r) ∧ runsOutside s e runs pos) ∧
      ((walkRuns s e repl runs pos false).2 = true →
        replCount (walkRuns s e repl runs pos false).1 = 1 ∧
        piecesText (walkRuns s e repl runs pos false).1 =
          splice (textOf runs) (s - pos) (e - pos) repl) := by
  intro runs
  induction runs with
  | nil =>
    intro pos
    exact ⟨fun _ => ⟨rfl, trivial⟩, fun h => by simp [walkRuns] at h⟩
  | cons r rs ih =>
    intro pos
    obtain ⟨ihF, ihT⟩ := ih (pos + r.text.length)
    by_cases h1 : pos + r.text.length ≤ s
    · have heq : walkRuns s e repl (r :: rs) pos false =
          (Piece.keep r.text r :: (walkRuns s e repl rs (pos + r.text.length) false).1,
           (walkRuns s e repl rs (pos + r.text.length) false).2) := by
        simp only [walkRuns]
        rw [if_pos h1]
      rw [heq]
      constructor
      · intro hb
        obtain ⟨hp, ho⟩ := ihF hb
        exact ⟨by rw [hp]; simp, ⟨Or.inl h1, ho⟩⟩
      · intro hb
        obtain ⟨hc, ht⟩ := ihT hb
        refine ⟨by simpa [replCount] using hc, ?_⟩
        simp only [piecesText, List.map_cons, List.flatten_cons, pieceText]
        show r.text ++ piecesText (walkRuns s e repl rs (pos + r.text.length) false).1 = _
        have hsub1 : s - (pos + r.text.length) = (s - pos) - r.text.length := by omega
        have hsub2 : e - (pos + r.text.length) = (e - pos) - r.text.length := by omega
        rw [ht, textOf_cons, splice_before (by omega) (by omega), hsub1, hsub2]
    · by_cases h2 : pos ≥ e
      · rw [walkRuns_past_end s e repl hse (r :: rs) pos h2]
        constructor
        · intro _
          refine ⟨rfl, ?_⟩
          refine ⟨Or.inr h2, ?_⟩
          have : walkRuns s e repl rs (pos + r.text.length) false =
              (rs.map (fun r => Piece.keep r.text r), false) :=
            walkRuns_past_end s e repl hse rs (pos + r.text.length) (by omega)
          exact ((ih (pos + r.text.length)).1 (by rw [this])).2
        · intro hb; simp at hb
      · by_cases h3 : pos < s ∧ pos + r.text.length > s
        · obtain ⟨ihb, ihc, iht⟩ := walkRuns_true s e repl hse rs (pos + r.text.length)
          have heq : walkRuns s e repl (r :: rs) pos false =
              (((if r.text.take (s - pos) ≠ [] then [Piece.keep (r.text.take (s - pos)) r] else []) ++
                ([Piece.repl repl r] ++
                (if pos + r.text.length ≥ e then
                  (if r.text.drop (e - pos) ≠ [] then [Piece.keep (r.text.drop (e - pos)) r] else [])
                 else []))) ++
                (walkRuns s e repl rs (pos + r.text.length) true).1,
               (walkRuns s e repl rs (pos + r.text.length) true).2) := by
            simp only [walkRuns]
            rw [if_neg h1, if_neg h2, if_pos h3]
            simp
          rw [heq]
          constructor
          · intro hb; rw [ihb] at hb; cases hb
          · intro _
            constructor
            · rw [replCount_append, replCount_append, replCount_condKeep, ihc]
              by_cases h4 : pos + r.text.length ≥ e
              · rw [if_pos h4, replCount_append, replCount_condKeep]
                simp [replCount]
              · rw [if_neg h4]
                simp [replCount]
            · rw [piecesText_append, piecesText_append, piecesText_condKeep, iht, textOf_cons]
              by_cases h4 : pos + r.text.length ≥ e
              · rw [if_pos h4, piecesText_append, piecesText_condKeep]
                have hs0' : s - (pos + r.text.length) = 0 := by omega
                have he0' : e - (pos + r.text.length) = 0 := by omega
                rw [hs0', he0', splice_zero,
                  splice_straddle_short (by omega) (by omega)]
                simp [piecesText, pieceText]
              · rw [if_neg h4]
                have hs0' : s - (pos + r.text.length) = 0 := by omega
                have hsub2 : e - (pos + r.text.length) = (e - pos) - r.text.length := by omega
                rw [hs0', hsub2, splice_straddle_long (by omega) (by omega)]
                simp [splice, piecesText, pieceText]
        · by_cases h4 : pos ≥ s ∧ pos + r.text.length ≤ e
          · obtain ⟨ihb, ihc, iht⟩ := walkRuns_true s e repl hse rs (pos + r.text.length)
            have heq : walkRuns s e repl (r :: rs) pos false =
                ([Piece.repl repl r] ++
                  (walkRuns s e repl rs (pos + r.text.length) true).1,
                 (walkRuns s e repl rs (pos + r.text.length) true).2) := by
              simp only [walkRuns]
              rw [if_neg h1, if_neg h2, if_neg h3, if_pos h4]
              simp
            rw [heq]
            constructor
            · intro hb; rw [ihb] at hb; cases hb
            · intro _
              constructor
              · rw [replCount_append, ihc]; rfl
              · rw [piecesText_append, iht, textOf_cons]
                have hs0 : s - pos = 0 := by omega
                have hs0' : s - (pos + r.text.length) = 0 := by omega
                have hsub2 : e - (pos + r.text.length) = (e - pos) - r.text.length := by omega
                rw [hs0, hs0', hsub2, splice_inside_long (by omega)]
                simp [splice, piecesText, pieceText]
          · by_cases h5 : pos < e ∧ pos + r.text.length > e
            · obtain ⟨ihb, ihc, iht⟩ := walkRuns_true s e repl hse rs (pos + r.text.length)
              have heq : walkRuns s e repl (r :: rs) pos false =
                  (([Piece.repl repl r] ++
                    (if r.text.drop (e - pos) ≠ [] then [Piece.keep (r.text.drop (e - pos)) r] else [])) ++
                    (walkRuns s e repl rs (pos + r.text.length) true).1,
                   (walkRuns s e repl rs (pos + r.text.length) true).2) := by
                simp only [walkRuns]
                rw [if_neg h1, if_neg h2, if_neg h3, if_neg h4, if_pos h5]
                simp
              rw [heq]
              constructor
              · intro hb; rw [ihb] at hb; cases hb
              · intro _
                constructor
                · rw [replCount_append, replCount_append, replCount_condKeep, ihc]
                  simp [replCount]
                · rw [piecesText_append, piecesText_append, piecesText_condKeep, iht, textOf_cons]
                  have hs0 : s - pos = 0 := by omega
                  have hs0' : s - (pos + r.text.length) = 0 := by omega
                  have he0' : e - (pos + r.text.length) = 0 := by omega
                  rw [hs0, hs0', he0', splice_zero, splice_inside_short (by omega)]
                  simp [piecesText, pieceText]
            · exact absurd hse (by omega)

theorem findStartRun_exists (s : Nat) :
    ∀ (runs : List Run) (pos : Nat), pos ≤ s →
      s < pos + (textOf runs).length →
      ∃ i r, findStartRun s runs pos = some (i, r) := by
  intro runs
  induction runs with
  | nil =>
    intro pos hpos hlen
    simp [textOf] at hlen
    omega
  | cons r rs ih =>
    intro pos hpos hlen
    by_cases hit : pos ≤ s ∧ s < pos + r.text.length
    · exact ⟨0, r, by rw [findStartRun, if_pos hit]⟩
    · have hge : pos + r.text.length ≤ s := by omega
      have hlen' : s < (pos + r.text.length) + (textOf rs).length := by
        rw [textOf_cons] at hlen
        simp at hlen
        omega
      obtain ⟨i, rr, hfind⟩ := ih (pos + r.text.length) hge hlen'
      refine ⟨i + 1, rr, ?_⟩
      rw [findStartRun, if_neg hit, hfind]

theorem insertPieceAt_fallback (s e : Nat) (repl : List Char) (hse : s ≤ e) :
    ∀ (runs : List Run) (pos : Nat) (i : Nat) (r : Run),
      runsOutside s e runs pos → pos ≤ s →
      findStartRun s runs pos = some (i, r) →
      replCount (insertPieceAt (runs.map (fun r => Piece.keep r.text r)) i
          (Piece.repl repl r)) = 1 ∧
      piecesText (insertPieceAt (runs.map (fun r => Piece.keep r.text r)) i
          (Piece.repl repl r)) =
        splice (textOf runs) (s - pos) (e - pos) repl := by
  intro runs
  induction runs with
  | nil => intro pos i r _ _ hfind; simp [findStartRun] at hfind
  | cons r0 rs ih =>
    intro pos i r hout hpos hfind
    rw [findStartRun] at hfind
    by_cases hit : pos ≤ s ∧ s < pos + r0.text.length
    · rw [if_pos hit] at hfind
      cases hfind
      have hpe : e ≤ pos := by
        rcases hout.1 with h | h
        · omega
        · exact h
      have hs0 : s - pos = 0 := by omega
      have he0 : e - pos = 0 := by omega
      rw [hs0, he0, splice_zero]
      have h1 : insertPieceAt ((r0 :: rs).map (fun r => Piece.keep r.text r)) 0
          (Piece.repl repl r0) =
          Piece.repl repl r0 :: (r0 :: rs).map (fun r => Piece.keep r.text r) := rfl
      rw [h1]
      constructor
      · rw [replCount.eq_def]
        simp only
        rw [replCount_mapKeep]
      · rw [piecesText_cons, piecesText_mapKeep]
        rfl
    · rw [if_neg hit] at hfind
      rcases hrec : findStartRun s rs (pos + r0.text.length) with _ | ⟨⟨i', rr⟩⟩
      · rw [hrec] at hfind; cases hfind
      · rw [hrec] at hfind
        cases hfind
        have hge : pos + r0.text.length ≤ s := by omega
        obtain ⟨ihc, iht⟩ := ih (pos + r0.text.length) i' r hout.2 hge hrec
        constructor
        · show replCount (Piece.keep r0.text r0 :: insertPieceAt _ i' _) = 1
          simpa [replCount] using ihc
        · show piecesText (Piece.keep r0.text r0 :: insertPieceAt _ i' _) = _
          have hsub1 : s - (pos + r0.text.length) = (s - pos) - r0.text.length := by omega
          have hsub2 : e - (pos + r0.text.length) = (e - pos) - r0.text.length := by omega
          rw [textOf_cons, splice_before (by omega) (by omega)]
          simp only [piecesText, List.map_cons, List.flatten_cons, pieceText]
          show r0.text ++ piecesText (insertPieceAt _ i' _) = _
          rw [iht, hsub1, hsub2]

/-- Claim C4: for every located span `[start, end)` with
`start ≤ end ≤ |text|` and `start < |text|`, the rebuilt `new_runs`
sequence contains exactly one emission of the replacement text, and its
position is correct: the concatenated text of the rebuilt sequence is
the paragraph text with exactly the span substituted.  This covers the
edge cases where no run straddles `start` (span beginning exactly at a
run boundary, and `start = end`), which go through the post-walk
fallback insertion. -/
theorem rebuildPieces_exactly_once (runs : List Run) (s e : Nat)
    (repl : List Char) (hse : s ≤ e) (he : e ≤ (textOf runs).length)
    (hs : s < (textOf runs).length) :
    replCount (rebuildPieces runs s e repl) = 1 ∧
    piecesText (rebuildPieces runs s e repl) =
      (textOf runs).take s ++ repl ++ (textOf runs).drop e := by
  have hmain := walkRuns_false s e repl hse runs 0
  unfold rebuildPieces
  match hw : walkRuns s e repl runs 0 false with
  | (ps, true) =>
    obtain ⟨hc, ht⟩ := hmain.2 (by rw [hw])
    rw [hw] at hc ht
    simp only at hc ht
    simp only [Nat.sub_zero, splice] at ht
    exact ⟨hc, ht⟩
  | (ps, false) =>
    obtain ⟨hp, ho⟩ := hmain.1 (by rw [hw])
    rw [hw] at hp
    simp only at hp
    obtain ⟨i, r, hfind⟩ := findStartRun_exists s runs 0 (Nat.zero_le s) (by omega)
    rw [hfind, hp]
    have := insertPieceAt_fallback s e repl hse runs 0 i r ho (Nat.zero_le s) hfind
    simpa [splice] using this

/-- Witness for `rebuildPieces_exactly_once` at the boundary edge case
`start = end = 2` between two runs. -/
theorem rebuildPieces_exactly_once_witness :
    (2 ≤ 2 ∧ 2 ≤ (textOf [⟨"ab".data, blankFmt⟩, ⟨"cd".data, blankFmt⟩]).length ∧
      2 < (textOf [⟨"ab".data, blankFmt⟩, ⟨"cd".data, blankFmt⟩]).length) ∧
    replCount (rebuildPieces [⟨"ab".data, blankFmt⟩, ⟨"cd".data, blankFmt⟩]
      2 2 "X".data) = 1 ∧
    piecesText (rebuildPieces [⟨"ab".data, blankFmt⟩, ⟨"cd".data, blankFmt⟩]
      2 2 "X".data) =
      (textOf [⟨"ab".data, blankFmt⟩, ⟨"cd".data, blankFmt⟩]).take 2 ++ "X".data ++
        (textOf [⟨"ab".data, blankFmt⟩, ⟨"cd".data, blankFmt⟩]).drop 2 :=
  ⟨⟨by decide, by decide, by decide⟩,
    rebuildPieces_exactly_once [⟨"ab".data, blankFmt⟩, ⟨"cd".data, blankFmt⟩]
      2 2 "X".data (by decide) (by decide) (by decide)⟩

/-! ### `TaskManager` (`block2_orchestrator/task_manager.py`)

`TaskStatus` is the exact enum of the source (lines 25-31); note it has
five members and none of them is a quota-paused state.  Python
attribute lookup on the enum class is modelled by `taskStatusMember`. -/

inductive TaskStatus
  | created | processing | completed | failed | cancelled
deriving DecidableEq, Fintype

def TaskStatus.value : TaskStatus → List Char
  | .created => "created".data
  | .processing => "processing".data
  | .completed => "completed".data
  | .failed => "failed".data
  | .cancelled => "cancelled".data

/-- `getattr(TaskStatus, name)`: `some` member, or an
`AttributeError` (`none`) when the enum has no such member. -/
def taskStatusMember (name : List Char) : Option TaskStatus :=
  if name = "CREATED".data then some .created
  else if name = "PROCESSING".data then some .processing
  else if name = "COMPLETED".data then some .completed
  else if name = "FAILED".data then some .failed
  else if name = "CANCELLED".data then some .cancelled
  else none

/-- Python exceptions reaching the orchestrator.  `quotaExceeded`
models `QuotaExceededError`, whose definition is not among the provided
sources (it is imported from `block3_paraphrasing.ai_providers`);
modelled from the spec as the distinguished quota-exhaustion signal,
an ordinary exception. -/
inductive PyErr
  | quotaExceeded (msg : List Char)
  | generic (msg : List Char)
  | attributeError (obj attr : List Char)
deriving DecidableEq

def errStr : PyErr → List Char
  | .quotaExceeded m => m
  | .generic m => m
  | .attributeError obj attr =>
      "type object ".data ++ obj ++ " has no attribute ".data ++ attr

/-- `str.find` (first occurrence, `none` for absent). -/
def strFind (needle : List Char) : List Char → Option Nat
  | [] => if needle.isPrefixOf [] then some 0 else none
  | c :: t =>
    if needle.isPrefixOf (c :: t) then some 0
    else (strFind needle t).map (· + 1)

/-- Python `needle in hay`. -/
def containsStr (hay needle : List Char) : Bool := (strFind needle hay).isSome

/-- `str.lower()` (ASCII). -/
def toLowerStr (l : List Char) : List Char := l.map Char.toLower

/-- The quota-error test of `process_task` (lines 192-197):
`isinstance(e, QuotaExceededError) or "quota" in s.lower() or "429" in
s or "превышен лимит" in s.lower()`. -/
def isQuotaError (e : PyErr) : Bool :=
  match e with
  | .quotaExceeded _ => true
  | _ =>
    containsStr (toLowerStr (errStr e)) "quota".data ||
    containsStr (errStr e) "429".data ||
    containsStr (toLowerStr (errStr e)) "превышен лимит".data

structure Task where
  fragments : List (List Char)
  paraphrased : List (List Char)
  status : TaskStatus
  errorMessage : Option (List Char)
deriving DecidableEq

/-- The `except` block of `process_task` (lines 187-234).  Returns the
exception that propagates out of `process_task`, the task state the
handler leaves behind, and whether `_save_task_to_disk` ran inside the
handler. -/
def processTaskHandler (task : Task) (e : PyErr) : PyErr × Task × Bool :=
  if isQuotaError e then
    -- processed_count from the (stale) task.paraphrased_fragments
    let processedCount := (task.paraphrased.filter (fun f => !(pyStrip f).isEmpty)).length
    -- `task.status = TaskStatus.IN_PROGRESS`: attribute lookup on the enum
    match taskStatusMember "IN_PROGRESS".data with
    | some st =>
      -- dead code: the enum has no IN_PROGRESS member; kept for faithfulness
      let msg := "Quota exceeded. Processed ".data ++ (toString processedCount).data
      (e, { task with status := st, errorMessage := some msg }, true)
    | none =>
      -- AttributeError raised inside the except block: it propagates,
      -- nothing is saved, the status set at line 125 remains
      (PyErr.attributeError "TaskStatus".data "IN_PROGRESS".data, task, false)
  else
    ((e, { task with status := .failed, errorMessage := some (errStr e) }, true))

/-- Claim C1: the quota-pause path of `process_task` cannot run: the
`TaskStatus` enum has no member named `IN_PROGRESS` (and no
quota-paused member at all), so on any quota-exhaustion error the
handler raises `AttributeError`, persists nothing, and no quota-paused
status is ever stored. -/
theorem processTask_quota_path_crashes :
    (∀ (task : Task) (msg : List Char),
      processTaskHandler task (PyErr.quotaExceeded msg) =
        (PyErr.attributeError "TaskStatus".data "IN_PROGRESS".data, task, false)) ∧
    taskStatusMember "IN_PROGRESS".data = none ∧
    (∀ st : TaskStatus, TaskStatus.value st ≠ "quota_paused".data) := by
  refine ⟨fun task msg => ?_, by decide, by decide⟩
  rfl

/-! ### `TaskManager._process_fragments` (lines 236-326) -/

/-- Lines 319-322: one dispatch task is created for every enumerated
fragment of the task — the selection never consults the
`paraphrased` slots. -/
def dispatchedIndices (task : Task) : List Nat :=
  List.range task.fragments.length

/-- A single fragment worker (lines 247-317): the oracle is the
external paraphrase collaborator; on success the result is stored, on
any exception the original fragment is stored (and a quota error is
re-raised to the task level). -/
def fragmentResult (oracle : Nat → List Char → Except PyErr (List Char))
    (i : Nat) (f : List Char) : List Char :=
  match oracle i f with
  | .ok p => p
  | .error _ => f

/-- `_process_fragments`: a fresh all-empty result array is allocated
and every fragment is dispatched; the second component is the quota
error propagating out of `asyncio.gather`, if any worker raised one. -/
def processFragments (oracle : Nat → List Char → Except PyErr (List Char))
    (fragments : List (List Char)) :
    List (List Char) × Option PyErr :=
  (fragments.mapIdx (fun i f => fragmentResult oracle i f),
   (fragments.mapIdx (fun i f => (i, f))).findSome? (fun p =>
     match oracle p.1 p.2 with
     | .error e => if isQuotaError e then some (PyErr.quotaExceeded (errStr e)) else none
     | .ok _ => none))

def cexTask : Task :=
  { fragments := ["alpha".data, "beta".data],
    paraphrased := ["FILLED".data, []],
    status := .processing,
    errorMessage := none }

/-- Claim C2, counterexample: on a re-entered task whose slot 0 is
already filled, `_process_fragments` still dispatches fragment 0 — the
dispatch list is every index, not the empty slots only. -/
theorem processFragments_redispatches_filled_slots :
    cexTask.paraphrased.get? 0 = some "FILLED".data ∧
    dispatchedIndices cexTask = [0, 1] ∧
    dispatchedIndices cexTask ≠ [1] := by
  decide

/-- Claim C2 (amended): re-invoking `process` dispatches every fragment
of the task again, regardless of the `paraphrased` slots — the dispatch
selection never reads them (and the result array is rebuilt from
scratch, discarding previously filled values). -/
theorem processFragments_dispatch_ignores_slots (task : Task) :
    (∀ ps : List (List Char),
      dispatchedIndices { task with paraphrased := ps } = dispatchedIndices task) ∧
    (∀ i : Nat, i < task.fragments.length → i ∈ dispatchedIndices task) ∧
    (∀ oracle : Nat → List Char → Except PyErr (List Char),
      (processFragments oracle task.fragments).1.length = task.fragments.length) := by
  refine ⟨fun ps => rfl, fun i hi => by simpa [dispatchedIndices] using hi, ?_⟩
  intro oracle
  simp [processFragments]

/-- Witness for `processFragments_dispatch_ignores_slots` at the
concrete re-entered task. -/
theorem processFragments_dispatch_ignores_slots_witness :
    dispatchedIndices { cexTask with paraphrased := [] } = dispatchedIndices cexTask ∧
    (0 < cexTask.fragments.length ∧ 0 ∈ dispatchedIndices cexTask) :=
  ⟨(processFragments_dispatch_ignores_slots cexTask).1 [],
   ⟨by decide, (processFragments_dispatch_ignores_slots cexTask).2.1 0 (by decide)⟩⟩

/-! ### `TaskManager.continue_with_existing_document` (lines 521-598) -/

structure ParaphrasedDocument where
  documentId : List Char
  chatId : Int
  originalFilePath : List Char
  currentFilePath : List Char
  fragments : List (List Char)
  paraphrasedFragments : List (List Char)
  version : Nat
deriving DecidableEq

/-- What one continuation run produces: which fragments were dispatched
to the paraphrase collaborator, which source file and fragment lists the
document build used, and the record saved to the database. -/
structure ContinueResult where
  dispatchedFragments : List (List Char)
  buildSourcePath : List Char
  buildFragments : List (List Char)
  buildParaphrased : List (List Char)
  savedDoc : ParaphrasedDocument
deriving DecidableEq

/-- `continue_with_existing_document`: `none` models each early-return
and the catch-all `except` returning `None` (missing document, missing
file, a quota error from the dispatch, or a failed build). -/
def continueWithExistingDocument
    (existingDoc : Option ParaphrasedDocument)
    (fileExists : List Char → Bool)
    (oracle : Nat → List Char → Except PyErr (List Char))
    (buildOk : Bool) (outputPath : List Char)
    (newFragments : List (List Char)) : Option ContinueResult :=
  match existingDoc with
  | none => none
  | some doc =>
    if !(fileExists doc.currentFilePath) then none
    else
      match processFragments oracle newFragments with
      | (_, some _) => none
      | (newParaphrased, none) =>
        if !buildOk then none
        else
          some {
            dispatchedFragments := newFragments,
            buildSourcePath := doc.originalFilePath,
            buildFragments := doc.fragments ++ newFragments,
            buildParaphrased := doc.paraphrasedFragments ++ newParaphrased,
            savedDoc := {
              documentId := doc.documentId,
              chatId := doc.chatId,
              originalFilePath := doc.originalFilePath,
              currentFilePath := outputPath,
              fragments := doc.fragments ++ newFragments,
              paraphrasedFragments := doc.paraphrasedFragments ++ newParaphrased,
              version := doc.version + 1 } }

/-- Claim C6: a continuation on an existing document dispatches only
the new fragments, rebuilds from the original source path using the
stored fragment history concatenated with the new fragments (never
from the previously rewritten output file), and persists version
`v + 1`. -/
theorem continueTask_rebuilds_from_original
    (doc : ParaphrasedDocument) (fileExists : List Char → Bool)
    (oracle : Nat → List Char → Except PyErr (List Char))
    (outputPath : List Char) (newFragments : List (List Char))
    (hfile : fileExists doc.currentFilePath = true)
    (hquota : (processFragments oracle newFragments).2 = none) :
    ∃ res : ContinueResult,
      continueWithExistingDocument (some doc) fileExists oracle true
        outputPath newFragments = some res ∧
      res.dispatchedFragments = newFragments ∧
      res.buildSourcePath = doc.originalFilePath ∧
      (doc.originalFilePath ≠ doc.currentFilePath →
        res.buildSourcePath ≠ doc.currentFilePath) ∧
      res.buildFragments = doc.fragments ++ newFragments ∧
      res.savedDoc.version = doc.version + 1 ∧
      res.savedDoc.fragments = doc.fragments ++ newFragments := by
  have hmain : continueWithExistingDocument (some doc) fileExists oracle true
      outputPath newFragments = some {
        dispatchedFragments := newFragments,
        buildSourcePath := doc.originalFilePath,
        buildFragments := doc.fragments ++ newFragments,
        buildParaphrased := doc.paraphrasedFragments ++
          (processFragments oracle newFragments).1,
        savedDoc := {
          documentId := doc.documentId,
          chatId := doc.chatId,
          originalFilePath := doc.originalFilePath,
          currentFilePath := outputPath,
          fragments := doc.fragments ++ newFragments,
          paraphrasedFragments := doc.paraphrasedFragments ++
            (processFragments oracle newFragments).1,
          version := doc.version + 1 } } := by
    unfold continueWithExistingDocument
    dsimp only
    rw [if_neg (by simp [hfile])]
    rcases hp : processFragments oracle newFragments with ⟨newPara, err⟩
    rw [hp] at hquota
    simp only at hquota
    subst hquota
    rfl
  exact ⟨_, hmain, rfl, rfl, fun h => h, rfl, rfl, rfl⟩

def cexDoc : ParaphrasedDocument :=
  { documentId := "doc1".data, chatId := 7,
    originalFilePath := "orig.docx".data,
    currentFilePath := "v1.docx".data,
    fragments := ["A".data, "B".data],
    paraphrasedFragments := ["A2".data, "B2".data],
    version := 1 }

/-- Witness for `continueTask_rebuilds_from_original`: scenario E
(version 1 built from `[A, B]`, continuation adds `[C]`). -/
theorem continueTask_rebuilds_from_original_witness :
    ((fun _ => true) cexDoc.currentFilePath = true ∧
      (processFragments (fun _ f => Except.ok (f ++ "!".data)) ["C".data]).2 = none) ∧
    ∃ res : ContinueResult,
      continueWithExistingDocument (some cexDoc) (fun _ => true)
        (fun _ f => Except.ok (f ++ "!".data)) true "v2.docx".data ["C".data] = some res ∧
      res.dispatchedFragments = ["C".data] ∧
      res.buildSourcePath = cexDoc.originalFilePath ∧
      (cexDoc.originalFilePath ≠ cexDoc.currentFilePath →
        res.buildSourcePath ≠ cexDoc.currentFilePath) ∧
      res.buildFragments = cexDoc.fragments ++ ["C".data] ∧
      res.savedDoc.version = cexDoc.version + 1 ∧
      res.savedDoc.fragments = cexDoc.fragments ++ ["C".data] :=
  ⟨⟨rfl, rfl⟩,
   continueTask_rebuilds_from_original cexDoc (fun _ => true)
     (fun _ f => Except.ok (f ++ "!".data)) "v2.docx".data ["C".data] rfl rfl⟩

/-! ### `ParaphrasingAgent` (`block3_paraphrasing/agent_core.py`)

The AI providers and the stdlib JSON decoder are external collaborators
and appear as oracle parameters: `gen` functions map an attempt number
to the provider call outcome, `parseJson` models
`json.loads(...)["best_index"]` on the extracted brace span (`none` for
a decode error, a non-dict value, or a non-integer index).  Candidate
bookkeeping that never reaches the returned text (provider names,
scores) is omitted. -/

/-- `re.search(r'<paraphrase>(.*?)</paraphrase>', s, re.DOTALL)` plus
the surrounding strip logic (lines 297-304): the group between the
first opening tag and the first closing tag after it, stripped; if the
pattern does not match, the whole response stripped. -/
def extractParaphrase (resp : List Char) : List Char :=
  match strFind "<paraphrase>".data resp with
  | none => pyStrip resp
  | some i =>
    match strFind "</paraphrase>".data (resp.drop (i + ("<paraphrase>".data).length)) with
    | none => pyStrip resp
    | some j => pyStrip ((resp.drop (i + ("<paraphrase>".data).length)).take j)

/-- `_generate_with_provider` under its tenacity policy: up to three
attempts, transient exceptions retried, `QuotaExceededError` never
retried; an empty or whitespace-only response yields `None` without
retry. -/
def generateWithProviderGo (gen : Nat → Except PyErr (List Char)) :
    Nat → Nat → Except PyErr (Option (List Char))
  | _, 0 => .error (.generic "retries exhausted".data)
  | attempt, remaining + 1 =>
    match gen attempt with
    | .ok resp =>
      if !(pyStrip resp).isEmpty then .ok (some (extractParaphrase resp))
      else .ok none
    | .error e =>
      match e with
      | .quotaExceeded m => .error (.quotaExceeded m)
      | e => if remaining = 0 then .error e
             else generateWithProviderGo gen (attempt + 1) remaining

def generateWithProvider (gen : Nat → Except PyErr (List Char)) :
    Except PyErr (Option (List Char)) :=
  generateWithProviderGo gen 1 3

/-- `_generate_candidates`: `asyncio.gather(..., return_exceptions=True)`
captures every worker exception, then failed or `None` results are
filtered out. -/
def generateCandidates (providers : List (Nat → Except PyErr (List Char))) :
    List (List Char) :=
  providers.filterMap (fun gen =>
    match generateWithProvider gen with
    | .ok (some c) => some c
    | _ => none)

/-- `re.search(r'\{.*\}', s, re.DOTALL)` (greedy): the slice from the
first `{` to the last `}`, when the latter follows the former. -/
def extractBraceSpan (resp : List Char) : Option (List Char) :=
  match strFind "\x7b".data resp with
  | none => none
  | some i =>
    match strFind "\x7d".data resp.reverse with
    | none => none
    | some jrev =>
      let j := resp.length - 1 - jrev
      if i ≤ j then some ((resp.drop i).take (j - i + 1)) else none

/-- `_evaluate_candidates` (lines 322-382): any failure — evaluator
exception, missing or undecodable JSON, out-of-range index — falls back
to the first candidate. -/
def evaluateCandidates (evalGen : Except PyErr (List Char))
    (parseJson : List Char → Option Int)
    (candidates : List (List Char)) : List Char :=
  match candidates with
  | [] => []
  | c0 :: rest =>
    if rest.isEmpty then c0
    else
      match evalGen with
      | .error _ => c0
      | .ok resp =>
        match extractBraceSpan resp with
        | none => c0
        | some jsonStr =>
          match parseJson jsonStr with
          | none => c0
          | some bi =>
            if 0 ≤ bi ∧ bi.toNat < candidates.length then
              candidates.getD bi.toNat c0
            else c0

/-- `_humanize_text` (lines 384-411): on failure or an empty response
the input text is returned. -/
def humanizeText (humanGen : Except PyErr (List Char)) (text : List Char) :
    List Char :=
  match humanGen with
  | .error _ => text
  | .ok h => if !(pyStrip h).isEmpty then pyStrip h else text

/-- The `try` body of `paraphrase` (lines 192-226). -/
def paraphraseBody (providers : List (Nat → Except PyErr (List Char)))
    (evalGen : Except PyErr (List Char)) (parseJson : List Char → Option Int)
    (humanGen : Except PyErr (List Char)) (text : List Char) :
    Except PyErr (List Char) :=
  match generateCandidates providers with
  | [] => .error (.generic "Failed to generate paraphrase candidates".data)
  | c0 :: rest =>
    let best := if rest.isEmpty then c0
      else evaluateCandidates evalGen parseJson (c0 :: rest)
    .ok (humanizeText humanGen best)

/-- `paraphrase`: the body, with every exception caught by the
surrounding handler which returns the original text (lines 228-239). -/
def paraphrase (providers : List (Nat → Except PyErr (List Char)))
    (evalGen : Except PyErr (List Char)) (parseJson : List Char → Option Int)
    (humanGen : Except PyErr (List Char)) (text : List Char) : List Char :=
  match paraphraseBody providers evalGen parseJson humanGen text with
  | .ok r => r
  | .error _ => text

def cexProvider (attempt : Nat) : Except PyErr (List Char) :=
  match attempt with
  | _ => .ok "<paraphrase>PARA</paraphrase>".data

/-- Claim C9, counterexample: with one provider generating
successfully and the humanization call failing, `paraphrase` returns
the (unhumanized) candidate text, not the original input — a failure
in humanization does not fall back to the original text. -/
theorem paraphrase_human_failure_cex :
    paraphrase [cexProvider] (Except.ok []) (fun _ => none)
      (Except.error (PyErr.generic "rate limited".data)) "ORIG".data
      = "PARA".data ∧
    "PARA".data ≠ "ORIG".data := by
  constructor
  · rfl
  · decide

/-- Claim C9 (amended): `paraphrase` never propagates an exception —
every body failure is absorbed by the top-level handler.  When
candidate generation yields nothing (including when the only provider
hits quota exhaustion) the original input text is returned unchanged;
but a failure in evaluation or humanization falls back to the first or
best candidate, not to the original input. -/
theorem paraphrase_fallback_behaviour
    (providers : List (Nat → Except PyErr (List Char)))
    (evalGen : Except PyErr (List Char)) (parseJson : List Char → Option Int)
    (humanGen : Except PyErr (List Char)) (text : List Char) :
    (∀ e, paraphraseBody providers evalGen parseJson humanGen text = .error e →
      paraphrase providers evalGen parseJson humanGen text = text) ∧
    (generateCandidates providers = [] →
      paraphrase providers evalGen parseJson humanGen text = text) ∧
    (∀ e c0 rest, humanGen = Except.error e →
      generateCandidates providers = c0 :: rest →
      paraphrase providers evalGen parseJson humanGen text =
        (if rest.isEmpty then c0
         else evaluateCandidates evalGen parseJson (c0 :: rest))) := by
  refine ⟨?_, ?_, ?_⟩
  · intro e he
    unfold paraphrase
    rw [he]
  · intro hc
    unfold paraphrase paraphraseBody
    rw [hc]
  · intro e c0 rest hh hc
    unfold paraphrase paraphraseBody
    rw [hc, hh]
    simp [humanizeText]

/-- Witness for `paraphrase_fallback_behaviour`: a quota-exhausted
single provider yields no candidates and the original text comes
back. -/
theorem paraphrase_fallback_behaviour_witness :
    generateCandidates [fun _ => Except.error (PyErr.quotaExceeded "429".data)] = [] ∧
    paraphrase [fun _ => Except.error (PyErr.quotaExceeded "429".data)]
      (Except.ok []) (fun _ => none) (Except.ok []) "ORIG".data = "ORIG".data :=
  ⟨rfl,
   (paraphrase_fallback_behaviour
     [fun _ => Except.error (PyErr.quotaExceeded "429".data)]
     (Except.ok []) (fun _ => none) (Except.ok []) "ORIG".data).2.1 rfl⟩

/-! ### `DocumentBuilder` search-and-replace pipeline
(`_replace_fragment_in_document` and its helpers).

A `Para` is a list of runs; a document holds body paragraphs and
tables (rows of cells of paragraphs).  Python's `\w` and `str.split()`
are modelled over ASCII like `\s`/`\d` above. -/

abbrev Para := List Run
abbrev TableCell := List Para
abbrev TableRow := List TableCell
abbrev Table := List TableRow

structure Doc where
  paragraphs : List Para
  tables : List Table
deriving DecidableEq

/-- Maximal runs of characters satisfying `p` (used for `str.split()`
and for `re.findall(r'\b\w{4,}\b', ...)`). -/
def runSplitGo (p : Char → Bool) : List Char → List Char → List (List Char)
  | [], acc => if acc.isEmpty then [] else [acc.reverse]
  | c :: t, acc =>
    if p c then runSplitGo p t (c :: acc)
    else if acc.isEmpty then runSplitGo p t []
    else acc.reverse :: runSplitGo p t []

def runSplit (p : Char → Bool) (l : List Char) : List (List Char) :=
  runSplitGo p l []

/-- Python `str.split()` (split on whitespace, no empties). -/
def splitWs (l : List Char) : List (List Char) :=
  runSplit (fun c => !isPySpace c) l

def isWordChar (c : Char) : Bool := c.isAlphanum || c = '_'

/-- `" ".join(xs)` -/
def joinWithSpace : List (List Char) → List Char
  | [] => []
  | [x] => x
  | x :: xs => x ++ ' ' :: joinWithSpace xs

/-- The `norm_to_actual` table of
`_replace_in_paragraph_with_formatting` (lines 476-492): one actual
index per normalized position, whitespace runs collapsing to their
first character. -/
def normToActualGo : List Char → Nat → Bool → List Nat
  | [], _, _ => []
  | c :: t, i, inWs =>
    if !(isPySpace c) then i :: normToActualGo t (i + 1) false
    else if !inWs then i :: normToActualGo t (i + 1) true
    else normToActualGo t (i + 1) true

def normToActual (full : List Char) : List Nat := normToActualGo full 0 false

/-- `_replace_in_paragraph_with_formatting` (lines 442-617): locate the
span (exact, else via the normalized-position mapping), then rebuild
the runs with `rebuildParagraph`.  `none` models `return False`; the
`except` fallback (lines 606-617) is unreachable in the pure model. -/
def replaceInParagraphWithFormatting (p : Para) (original repl : List Char) :
    Option Para :=
  let full := textOf p
  match strFind original full with
  | some s => some (rebuildParagraph p s (s + original.length) repl)
  | none =>
    let nf := normalize full
    let no := normalize original
    match strFind no nf with
    | none => none
    | some ns =>
      let nEnd := ns + no.length
      let nta := normToActual full
      match nta.get? ns with
      | none => none
      | some s =>
        let e :=
          match nta.get? nEnd with
          | some v => v
          | none =>
            -- max over the entries with key < nEnd, then skip whitespace
            match nta.take nEnd with
            | [] => full.length
            | x :: xs =>
              let e0 := (xs.foldl max x) + 1
              e0 + ((full.drop e0).takeWhile isPySpace).length
        some (rebuildParagraph p s e repl)

/-- Per-character normalization text for the position-mapping loops:
`''.join(_normalize_text(c) for c in text)` (each single character
normalizes to itself or to the empty string). -/
def perCharNormText (full : List Char) : List Char :=
  (full.map (fun c => normalize [c])).flatten

/-- Indices of the characters whose single-character normalization is
nonempty, in order (the `norm_to_actual_start` map of
`_find_actual_text_in_paragraph`; the `..._end` value at key `k` is the
start value plus one). -/
def charNormIdxGo : List Char → Nat → List Nat
  | [], _ => []
  | c :: t, i =>
    if (normalize [c]).isEmpty then charNormIdxGo t (i + 1)
    else i :: charNormIdxGo t (i + 1)

def charNormIdx (full : List Char) : List Nat := charNormIdxGo full 0

/-- The start/end scan of the mapping loops (e.g. lines 707-717 and
389-401): walk the text counting normalized characters, record the
index reaching `t1`, stop at `t2`; defaults are `0` and the text
length. -/
def normScanPairGo (t1 t2 : Nat) (defEnd : Nat) :
    List Char → Nat → Nat → Nat → Nat × Nat
  | [], _, _, curAS => (curAS, defEnd)
  | c :: t, i, nc, curAS =>
    if (normalize [c]).isEmpty then normScanPairGo t1 t2 defEnd t (i + 1) nc curAS
    else
      let curAS' := if nc = t1 then i else curAS
      if nc = t2 then (curAS', i)
      else normScanPairGo t1 t2 defEnd t (i + 1) (nc + 1) curAS'

def normScanPair (t1 t2 : Nat) (text : List Char) : Nat × Nat :=
  normScanPairGo t1 t2 text.length text 0 0 0

/-- The single-target scan of lines 420-428 (break at `t`, default
`0`). -/
def normScanSingleGo (t : Nat) : List Char → Nat → Nat → Nat
  | [], _, _ => 0
  | c :: tl, i, nc =>
    if (normalize [c]).isEmpty then normScanSingleGo t tl (i + 1) nc
    else if nc = t then i
    else normScanSingleGo t tl (i + 1) (nc + 1)

def normScanSingle (t : Nat) (text : List Char) : Nat :=
  normScanSingleGo t text 0 0

/-- `_find_actual_text_in_paragraph` (lines 663-792). -/
def findActualTextInParagraph (p : Para) (normSearch : List Char) :
    Option (List Char) :=
  let full := textOf p
  let nf := normalize full
  match strFind normSearch nf with
  | none => none
  | some _ =>
    match strFind normSearch (perCharNormText full) with
    | none => none
    | some searchStart =>
      let se := normScanPair searchStart (searchStart + normSearch.length) full
      let candidate := (full.drop se.1).take (se.2 - se.1)
      if normalize candidate = normSearch then some candidate
      else
        let searchWords := splitWs normSearch
        if searchWords.length < 2 then none
        else
          match searchWords with
          | [] => none
          | fw :: _ =>
            let lw := searchWords.getLastD []
            match strFind (toLowerStr fw) (toLowerStr nf) with
            | none => none
            | some fpos =>
              match strFind (toLowerStr lw) (toLowerStr (nf.drop fpos)) with
              | none => none
              | some lrel =>
                let ntaS := charNormIdx full
                match ntaS.get? fpos with
                | none => none
                | some aStart =>
                  let lwe := fpos + lrel + lw.length
                  let aEnd :=
                    if lwe < ntaS.length then (ntaS.getD (lwe - 1) 0) + 1
                    else full.length
                  let candidate2 := (full.drop aStart).take (aEnd - aStart)
                  if toLowerStr (normalize candidate2) = toLowerStr normSearch
                  then some candidate2 else none

/-- `_find_actual_text_across_paragraphs` (lines 366-440). -/
def findActualTextAcrossParagraphs (paras : List Para) (normSearch : List Char) :
    Option (List Char) :=
  let combined := joinWithSpace (paras.map textOf)
  let cn := normalize combined
  match strFind normSearch cn with
  | none => none
  | some sp =>
    let se := normScanPair sp (sp + normSearch.length) combined
    let candidate := (combined.drop se.1).take (se.2 - se.1)
    if normalize candidate = normSearch then some candidate
    else
      let searchWords := splitWs normSearch
      if searchWords.length < 3 then none
      else
        let firstWords := joinWithSpace (searchWords.take 3)
        match strFind firstWords cn with
        | none => none
        | some fp =>
          let aStart := normScanSingle fp combined
          let aEnd := min (aStart + normSearch.length * 2) combined.length
          let candidate2 := (combined.drop aStart).take (aEnd - aStart)
          let cn2 := normalize candidate2
          if (searchWords.take 3).all (fun w => containsStr cn2 w)
          then some candidate2 else none

/-- The position scan of `_find_best_keyword_match` (lines 823-835). -/
def keywordScanGo (minPos maxPos : Nat) (defEnd : Nat) :
    List Char → Nat → Nat → Nat → Nat × Nat
  | [], _, _, curAS => (curAS, defEnd)
  | c :: t, i, ni, curAS =>
    let cnLen := (normalize [c]).length
    if cnLen = 0 then keywordScanGo minPos maxPos defEnd t (i + 1) ni curAS
    else
      let curAS' := if ni ≤ minPos ∧ minPos < ni + cnLen then i else curAS
      if ni ≤ maxPos ∧ maxPos < ni + cnLen then (curAS', i + 1)
      else keywordScanGo minPos maxPos defEnd t (i + 1) (ni + cnLen) curAS'

/-- `_find_best_keyword_match` (lines 794-857).  The `>= 0.6` float
similarity threshold is the rational comparison `5 * overlap >= 3 *
total` (exact for every realistic word count). -/
def findBestKeywordMatch (p : Para) (keywords : List (List Char))
    (normSearch : List Char) : Option (List Char) :=
  let paraT := textOf p
  let pn := normalize paraT
  let kps := keywords.filterMap (fun kw => strFind (toLowerStr kw) (toLowerStr pn))
  match kps with
  | [] => none
  | [_] => none
  | k0 :: krest =>
    let minPos := krest.foldl min k0
    let maxKw := keywords.foldl (fun m kw => max m kw.length) 0
    let maxPos := krest.foldl max k0 + maxKw
    let se := keywordScanGo minPos maxPos paraT.length paraT 0 0 0
    let aStart := se.1 - 50
    let aEnd := min paraT.length (se.2 + 50)
    let candidate := (paraT.drop aStart).take (aEnd - aStart)
    let cn := normalize candidate
    if 0 < normSearch.length then
      let searchSet := (splitWs (toLowerStr normSearch)).dedup
      let candSet := (splitWs (toLowerStr cn)).dedup
      let overlap := (searchSet.filter (fun w => w ∈ candSet)).length
      if searchSet.length ≠ 0 ∧ 3 * searchSet.length ≤ 5 * overlap
      then some candidate else none
    else none

/-- Replace the first element accepted by `f`, keeping everything else;
`none` when no element is accepted (the nested `for`/`break`
pattern). -/
def firstUpdate {α : Type} (f : α → Option α) : List α → Option (List α)
  | [] => none
  | x :: xs =>
    match f x with
    | some x' => some (x' :: xs)
    | none => (firstUpdate f xs).map (x :: ·)

/-- The body-paragraph pass of `_replace_fragment_in_document`
(lines 161-226): per paragraph, exact containment (lines 167-177), else
normalized containment (lines 180-194), then — when the paragraph did
not get replaced and is not the last — the multi-paragraph combination
(lines 197-226). -/
def bodyPassGo (orig no repl : List Char) : List Para → Option (List Para)
  | [] => none
  | p :: rest =>
    let pt := textOf p
    let pn := normalize pt
    let multi : Option Para :=
      if rest.isEmpty then none
      else
        let combinedParas := p :: rest.take 4
        let combinedNorm := joinWithSpace (combinedParas.map (fun q => normalize (textOf q)))
        if containsStr combinedNorm no then
          match findActualTextAcrossParagraphs combinedParas no with
          | some a => replaceInParagraphWithFormatting p a repl
          | none => none
        else none
    let attempt : Option Para :=
      if containsStr pt orig then
        match replaceInParagraphWithFormatting p orig repl with
        | some p' => some p'
        | none => multi
      else if containsStr pn no then
        match findActualTextInParagraph p no with
        | some a =>
          match replaceInParagraphWithFormatting p a repl with
          | some p' => some p'
          | none => multi
        | none => multi
      else multi
    match attempt with
    | some p' => some (p' :: rest)
    | none => (bodyPassGo orig no repl rest).map (p :: ·)

/-- One table-cell paragraph attempt (lines 237-264): exact
containment, else normalized containment via
`_find_actual_text_in_paragraph`; no multi-paragraph combining inside
tables. -/
def cellParaAttempt (orig no repl : List Char) (p : Para) : Option Para :=
  if containsStr (textOf p) orig then
    replaceInParagraphWithFormatting p orig repl
  else if containsStr (normalize (textOf p)) no then
    match findActualTextInParagraph p no with
    | some a => replaceInParagraphWithFormatting p a repl
    | none => none
  else none

/-- The table pass (lines 229-273): tables, rows, cells, paragraphs in
order, first success breaks out of every level. -/
def tablePass (orig no repl : List Char) (tables : List Table) :
    Option (List Table) :=
  firstUpdate (firstUpdate (firstUpdate (firstUpdate
    (cellParaAttempt orig no repl)))) tables

/-- The multi-paragraph keyword scan (lines 304-335); the last
paragraph index is excluded by `range(len - 1)`. -/
def multiKeywordGo (words : List (List Char)) (no repl : List Char) :
    List Para → Option (List Para)
  | [] => none
  | [_] => none
  | p :: rest =>
    let combined := p :: rest.take 2
    let combinedNorm := joinWithSpace (combined.map (fun q => normalize (textOf q)))
    let matching := (words.filter (fun w =>
      containsStr (toLowerStr combinedNorm) (toLowerStr w))).length
    let attempt : Option Para :=
      if 3 ≤ matching then
        match findActualTextAcrossParagraphs combined no with
        | some b => replaceInParagraphWithFormatting p b repl
        | none => none
      else none
    match attempt with
    | some p' => some (p' :: rest)
    | none => (multiKeywordGo words no repl rest).map (p :: ·)

/-- The keyword pass (lines 276-335): words of length at least four
from the normalized fragment; a paragraph qualifies with at least two
word hits (single) or three (combined over up to three paragraphs). -/
def keywordPass (no repl : List Char) (paras : List Para) :
    Option (List Para) :=
  let words := (runSplit isWordChar no).filter (fun w => 4 ≤ w.length)
  if 3 ≤ words.length then
    match firstUpdate (fun p =>
      let pnl := toLowerStr (normalize (textOf p))
      if 2 ≤ (words.filter (fun w => containsStr pnl (toLowerStr w))).length then
        match findBestKeywordMatch p words no with
        | some b => replaceInParagraphWithFormatting p b repl
        | none => none
      else none) paras with
    | some paras' => some paras'
    | none =>
      if 5 ≤ words.length then multiKeywordGo words no repl paras else none
  else none

/-- `_replace_fragment_in_document` (lines 138-364): body pass, then
tables, then the keyword fallback; returns the updated document and
whether a replacement was made. -/
def replaceFragmentInDocument (doc : Doc) (orig repl : List Char) :
    Doc × Bool :=
  let no := normalize orig
  match bodyPassGo orig no repl doc.paragraphs with
  | some paras' => ({ doc with paragraphs := paras' }, true)
  | none =>
    match tablePass orig no repl doc.tables with
    | some tables' => ({ doc with tables := tables' }, true)
    | none =>
      match keywordPass no repl doc.paragraphs with
      | some paras' => ({ doc with paragraphs := paras' }, true)
      | none => (doc, false)

/-- The reverse-order replacement loop of `replace_fragments`
(lines 67-107). -/
def replaceFragmentsGo : Doc → List (List Char × List Char) → Doc × Nat
  | doc, [] => (doc, 0)
  | doc, (o, pr) :: rest =>
    let step := replaceFragmentInDocument doc o pr
    let recres := replaceFragmentsGo step.1 rest
    (recres.1, (if step.2 then 1 else 0) + recres.2)

structure BuildResult where
  success : Bool
  outputFile : Option Doc
  replacementsMade : Nat
deriving DecidableEq

/-- `DocumentBuilder.replace_fragments` (lines 28-136): on a length
mismatch it returns `False` before the output copy is created; else the
output file starts as a copy of the source and the fragments are
processed in reverse order; the return value is `True` regardless of
how many fragments matched. -/
def replaceFragments (source : Doc) (origs paras : List (List Char)) :
    BuildResult :=
  if origs.length ≠ paras.length then
    { success := false, outputFile := none, replacementsMade := 0 }
  else
    let run := replaceFragmentsGo source ((origs.zip paras).reverse)
    { success := true, outputFile := some run.1, replacementsMade := run.2 }

/-- Body paragraph for the search-order example: fails exact,
normalized and multi-paragraph matching of the fragment but shares
three of its keywords. -/
def exBodyParas : List Para := [[⟨"alpha beta gamma nothing here".data, blankFmt⟩]]

/-- A table whose single cell contains the fragment verbatim. -/
def exTables : List Table := [[[[[⟨"alpha beta gamma delta".data, blankFmt⟩]]]]]

/-- Document with both the keyword-matching body paragraph and the
verbatim table cell. -/
def exDoc : Doc := { paragraphs := exBodyParas, tables := exTables }

def exOrig : List Char := "alpha beta gamma delta".data

def exRepl : List Char := "REPL".data

/-- The tables after the table pass replaces the cell text. -/
def exTablesR : List Table := [[[[[⟨"REPL".data, blankFmt⟩]]]]]

/-- Claim C7, counterexample: in `exDoc` the single body paragraph
fails the exact, normalized and multi-paragraph strategies for the
fragment, the keyword strategy on the body would succeed, and a table
cell contains the fragment verbatim.  The code replaces the table cell
and leaves the body untouched, so the table is consulted and used
before the keyword strategy is ever attempted on the body paragraphs —
contradicting "no table is consulted before the keyword strategy has
been attempted on the body Blocks". -/
theorem tables_consulted_before_keyword_cex :
    keywordPass (normalize exOrig) exRepl exDoc.paragraphs ≠ none ∧
    (replaceFragmentInDocument exDoc exOrig exRepl).1.paragraphs = exDoc.paragraphs ∧
    (replaceFragmentInDocument exDoc exOrig exRepl).1.tables ≠ exDoc.tables ∧
    (replaceFragmentInDocument exDoc exOrig exRepl).2 = true := by decide

/-- Claim C7 (amended): `_replace_fragment_in_document` tries the body
paragraphs with the exact, normalized and multi-paragraph strategies
first; when that pass fails, the tables are searched next, and a table
hit is applied without the keyword strategy ever being attempted: the
keyword pass is the last resort, after the tables, not before them. -/
theorem replaceFragment_tables_before_keyword (doc : Doc)
    (orig repl : List Char) (t' : List Table)
    (hb : bodyPassGo orig (normalize orig) repl doc.paragraphs = none)
    (ht : tablePass orig (normalize orig) repl doc.tables = some t') :
    replaceFragmentInDocument doc orig repl = ({ doc with tables := t' }, true) := by
  simp only [replaceFragmentInDocument, hb, ht]

theorem replaceFragment_tables_before_keyword_witness :
    (bodyPassGo exOrig (normalize exOrig) exRepl exDoc.paragraphs = none ∧
     tablePass exOrig (normalize exOrig) exRepl exDoc.tables = some exTablesR ∧
     keywordPass (normalize exOrig) exRepl exDoc.paragraphs ≠ none) ∧
    replaceFragmentInDocument exDoc exOrig exRepl = ({ exDoc with tables := exTablesR }, true) :=
  ⟨⟨by decide, by decide, by decide⟩,
   replaceFragment_tables_before_keyword exDoc exOrig exRepl exTablesR
     (by decide) (by decide)⟩

/-- Claim C3: when the fragment lists have different lengths,
`replace_fragments` fails immediately: the result reports failure, no
output document exists and zero replacements were made — the mismatch
check runs before the output copy is created, so no document content
is touched. -/
theorem replaceFragments_mismatch_no_side_effects (source : Doc)
    (origs paras : List (List Char)) (h : origs.length ≠ paras.length) :
    replaceFragments source origs paras =
      { success := false, outputFile := none, replacementsMade := 0 } := by
  unfold replaceFragments
  rw [if_pos h]

theorem replaceFragments_mismatch_no_side_effects_witness :
    ((["a".data] : List (List Char)).length ≠ ([] : List (List Char)).length) ∧
    replaceFragments { paragraphs := [], tables := [] } ["a".data] [] =
      { success := false, outputFile := none, replacementsMade := 0 } :=
  ⟨by decide,
   replaceFragments_mismatch_no_side_effects { paragraphs := [], tables := [] }
     ["a".data] [] (by decide)⟩

/-- Claim C10: with equal-length fragment lists `replace_fragments`
reports success unconditionally — `success` says only that no
precondition failed, independent of how many fragments actually
matched and were replaced. -/
theorem replaceFragments_true_without_matches (source : Doc)
    (origs paras : List (List Char)) (h : origs.length = paras.length) :
    (replaceFragments source origs paras).success = true := by
  unfold replaceFragments
  rw [if_neg (fun hc => hc h)]

/-- A document in which the fragment below matches nothing: not
exactly, not normalized, and with only two long keywords the keyword
strategy does not even run. -/
def w10doc : Doc := { paragraphs := [[⟨"The cat sat.".data, blankFmt⟩]], tables := [] }

theorem replaceFragments_true_without_matches_witness :
    (([("zzzz qqqq".data)].length = [("repl".data)].length) ∧
     (replaceFragments w10doc ["zzzz qqqq".data] ["repl".data]).replacementsMade = 0 ∧
     (replaceFragments w10doc ["zzzz qqqq".data] ["repl".data]).outputFile = some w10doc) ∧
    (replaceFragments w10doc ["zzzz qqqq".data] ["repl".data]).success = true :=
  ⟨⟨by decide, by decide, by decide⟩,
   replaceFragments_true_without_matches w10doc ["zzzz qqqq".data] ["repl".data]
     (by decide)⟩

end PE
